import Mathlib

/-!
# Verification of the generic open-addressing hash table (`src/hashtable.c`)

Shallow embedding of the C implementation:

* `struct HashTable` becomes the structure `HashTable K V`.  The 2-bit-per-slot
  `control_bytes` array is modelled as a `List SlotState` (`get_state` /
  `set_state` in the C source decode and encode exactly one `SlotState` per
  slot; no externally observable behavior depends on the bit layout).
* `void*` keys and values become `Option K` / `Option V`: `none` models the
  `NULL` pointer (an entry field that was never written, or a clone that
  failed and returned `NULL`).
* the caller-supplied `type_handler` keeps its three key-relevant function
  pointers (`copy`, `equal`, `hash`); `destroy` only releases memory and has
  no observable effect in a pure model, so it is omitted.  `copy` returns
  `Option` because a C `copy_function` can fail by returning `NULL`.
* the allocator is modelled by explicit `Bool` arguments giving the outcome
  of each individual allocation request (`true` = the request succeeds);
  `free` is a no-op in a pure model.
* the probe loop in `find_entry_index` runs fuel-bounded with fuel equal to
  `capacity`.  After `capacity` iterations the loop has visited every slot
  once and revisits them with identical outcomes forever (the tombstone
  register can only be written on the first pass), so the C loop terminates
  iff the fuel-bounded search returns `some`; a `none` result models an
  infinite loop in the C code.
* machine integers (`size_t`, `uint64_t`) are modelled as `Nat`.  The caller
  hash value is truncated with `% 2 ^ 64` (the `uint64_t` return type); the
  remaining arithmetic (`count + 1`, `capacity * 2`, `index + 1`) cannot
  overflow at the magnitudes any claim is about, so no further masking is
  applied.  The `double` comparison `count + 1 > capacity * 0.75` is exact
  for these magnitudes (`0.75 = 3 * 2⁻²`, and `3 * capacity` is exactly
  representable), hence it is translated to `4 * (count + 1) > 3 * capacity`.
-/

set_option autoImplicit false

namespace HashTableC

/-- Slot states of `control_bytes` (hashtable.c lines 24-26):
`0b00 = STATE_EMPTY`, `0b01 = STATE_OCCUPIED`, `0b10 = STATE_DELETED`. -/
inductive SlotState where
  | EMPTY
  | OCCUPIED
  | DELETED
  deriving DecidableEq, Repr

/-- The caller-supplied behavior set (`type_handler`, hashtable.h lines 38-43).
`copy` may fail (return `NULL`), modelled by `Option`; `equal` and `hash` are
only consulted for keys.  `destroy` frees memory and is omitted (no observable
effect in a pure model). -/
structure type_handler (α : Type) where
  copy : α → Option α
  equal : α → α → Bool
  hash : α → Nat

/-- `struct HashTable` (hashtable.c lines 36-44).  `states` is the decoded
`control_bytes` array; `entries` is the `InternalEntry` array, with `none`
standing for a `NULL` pointer.  The allocator field is replaced by explicit
per-request outcome arguments on the operations that allocate. -/
structure HashTable (K V : Type) where
  key_handler : type_handler K
  value_handler : type_handler V
  capacity : Nat
  count : Nat
  states : List SlotState
  entries : List (Option K × Option V)

variable {K V : Type}

/-- `get_state` (hashtable.c lines 56-60): read the slot state at `index`.
The default for an out-of-range index is irrelevant: every index the
operations produce is `< capacity`, and the tables the theorems quantify over
have `states.length = capacity`. -/
def get_state (t : HashTable K V) (index : Nat) : SlotState :=
  t.states.getD index SlotState.EMPTY

/-- `set_state` (hashtable.c lines 63-70): write the slot state at `index`. -/
def set_state (t : HashTable K V) (index : Nat) (s : SlotState) : HashTable K V :=
  { t with states := t.states.set index s }

/-- The entry stored at `index` (`table->entries[index]`). -/
def entryAt (t : HashTable K V) (index : Nat) : Option K × Option V :=
  t.entries.getD index (none, none)

/-- The key comparison `table->key_handler.equal(table->entries[index].key, key)`
performed on `STATE_OCCUPIED` slots (hashtable.c line 94).  A stored `NULL`
key never arises in a table whose occupied slots hold successfully cloned
keys; applying the user `equal` to `NULL` has no defined meaning, and the
`none` branch (modelled as `false`) is unreachable in every theorem below. -/
def keyMatch (t : HashTable K V) (key : K) (index : Nat) : Bool :=
  match (entryAt t index).1 with
  | some k => t.key_handler.equal k key
  | none => false

/-- `hash % capacity` with the `uint64_t` truncation of the caller hash
(hashtable.c lines 76-77). -/
def hashIndex (t : HashTable K V) (key : K) : Nat :=
  t.key_handler.hash key % 2 ^ 64 % t.capacity

/-- The body of the linear-probing loop of `find_entry_index`
(hashtable.c lines 81-100), fuel-bounded.  `tombstone_index` is the
`(size_t)-1`-sentinelled register, modelled as `Option Nat`.  A `none` result
means the C loop never terminates (see the header comment). -/
def probe (t : HashTable K V) (key : K) (find_empty_for_insert : Bool) :
    Nat → Nat → Option Nat → Option Nat
  | 0, _, _ => none
  | fuel + 1, index, tombstone_index =>
    match get_state t index with
    | SlotState.EMPTY =>
        some (match find_empty_for_insert, tombstone_index with
              | true, some ti => ti
              | _, _ => index)
    | SlotState.DELETED =>
        probe t key find_empty_for_insert fuel ((index + 1) % t.capacity)
          (if find_empty_for_insert && tombstone_index.isNone
           then some index else tombstone_index)
    | SlotState.OCCUPIED =>
        if keyMatch t key index then some index
        else probe t key find_empty_for_insert fuel ((index + 1) % t.capacity)
          tombstone_index

/-- `find_entry_index` (hashtable.c lines 75-101). -/
def find_entry_index (t : HashTable K V) (key : K) (find_empty_for_insert : Bool) :
    Option Nat :=
  probe t key find_empty_for_insert t.capacity (hashIndex t key) none

/-- Lines 213-231 of `hash_table_insert`: probe in insert mode, then either
occupy a fresh slot (cloning key and value, incrementing `count`) or update
the value of the matching occupied slot in place.  `none` models the case in
which the probe loop never terminates. -/
def insertEntry (t : HashTable K V) (k : K) (v : V) : Option (HashTable K V × Bool) :=
  match find_entry_index t k true with
  | none => none
  | some index =>
    if get_state t index ≠ SlotState.OCCUPIED then
      some ({ set_state t index SlotState.OCCUPIED with
                entries := t.entries.set index (t.key_handler.copy k, t.value_handler.copy v),
                count := t.count + 1 }, true)
    else
      some ({ t with
                entries := t.entries.set index ((entryAt t index).1, t.value_handler.copy v) },
            true)

/-- The fresh storage `resize` points the table at after both allocations
succeed (hashtable.c lines 110-131): `new_capacity` slots, all `STATE_EMPTY`,
all entry pointers `NULL`, `count = 0`; capacity updated. -/
def freshStorage (t : HashTable K V) (new_capacity : Nat) : HashTable K V :=
  { t with
      capacity := new_capacity
      count := 0
      states := List.replicate new_capacity SlotState.EMPTY
      entries := List.replicate new_capacity (none, none) }

/-- The re-hash loop of `resize` (hashtable.c lines 134-144), parameterized by
the insert function used for re-hashing (the C source is mutually recursive
between `resize` and `hash_table_insert`; the parameter breaks that cycle, and
`hash_table_insert`/`resize` below re-tie it with an explicit fuel bounding
the nesting depth).  For every `STATE_OCCUPIED` slot of the old storage, C
calls `hash_table_insert` with the old key/value pointers, ignoring its return
value.  An occupied slot holding a `NULL` key or value pointer would make C
hand `NULL` to the caller's `hash`/`copy` functions, which has no defined
meaning; such a slot is skipped here and is unreachable for tables whose
occupied slots hold successfully cloned keys and values. -/
def rehashLoopWith (ins : HashTable K V → K → V → Option (HashTable K V × Bool)) :
    HashTable K V → List (SlotState × (Option K × Option V)) → Option (HashTable K V)
  | t, [] => some t
  | t, (SlotState.OCCUPIED, (some k, some v)) :: rest =>
    match ins t k v with
    | none => none
    | some (t', _) => rehashLoopWith ins t' rest
  | t, _ :: rest => rehashLoopWith ins t rest

/-- `resize` (hashtable.c lines 104-149), parameterized by the insert function
used for re-hashing.  Outer `none` = the rehash loop never returns;
`some none` = an allocation failed and the table is untouched (C returns
`false` before mutating anything); `some (some t')` = success.  `a1`, `a2`
are the outcomes of the two allocation requests (control bytes, entries); if
the first fails the second request is never made, so `a2` is unread there. -/
def resizeWith (ins : HashTable K V → K → V → Option (HashTable K V × Bool))
    (t : HashTable K V) (new_capacity : Nat) (a1 a2 : Bool) :
    Option (Option (HashTable K V)) :=
  if a1 = false then some none
  else if a2 = false then some none
  else
    match rehashLoopWith ins (freshStorage t new_capacity) (t.states.zip t.entries) with
    | none => none
    | some t' => some (some t')

/-- `hash_table_insert` (hashtable.c lines 205-232).  `fuel` bounds the depth
of nested `insert → resize → insert → …` recursion only; a nested resize never
actually triggers for any table with `capacity ≥ 2` (the re-inserted entries
cannot exceed half of the doubled capacity), so any `fuel ≥ 1` computes the C
behavior.  `a1`, `a2` are the outcomes of the two allocation requests a
triggered resize would make (control bytes, entries).  Results: `none` = the
call never returns; `some (t', false)` = allocation failure (C returns
`false`); `some (t', true)` = success. -/
def hash_table_insert : Nat → HashTable K V → K → V → Bool → Bool →
    Option (HashTable K V × Bool)
  | 0, t, k, v, _, _ =>
    if 4 * (t.count + 1) > 3 * t.capacity then none
    else insertEntry t k v
  | fuel + 1, t, k, v, a1, a2 =>
    if 4 * (t.count + 1) > 3 * t.capacity then
      match resizeWith (fun t' k' v' => hash_table_insert fuel t' k' v' a1 a2)
          t (2 * t.capacity) a1 a2 with
      | none => none
      | some none => some (t, false)
      | some (some t1) => insertEntry t1 k v
    else insertEntry t k v

/-- `resize` as called from `hash_table_insert`: `resizeWith` re-tied to
`hash_table_insert` at nesting depth `fuel`. -/
def resize (fuel : Nat) (t : HashTable K V) (new_capacity : Nat) (a1 a2 : Bool) :
    Option (Option (HashTable K V)) :=
  resizeWith (fun t' k' v' => hash_table_insert fuel t' k' v' a1 a2) t new_capacity a1 a2

/-- `hash_table_lookup` (hashtable.c lines 234-241).  Outer `none` = the probe
loop never terminates; `some r` = the call returns the pointer `r`
(`none` = `NULL`, i.e. not found). -/
def hash_table_lookup (t : HashTable K V) (key : K) : Option (Option V) :=
  if t.count = 0 then some none
  else
    match find_entry_index t key false with
    | none => none
    | some index =>
      if get_state t index = SlotState.OCCUPIED then some (entryAt t index).2
      else some none

/-- `hash_table_delete` (hashtable.c lines 243-261).  Outer `none` = the probe
loop never terminates; otherwise returns the mutated table and the C `bool`. -/
def hash_table_delete (t : HashTable K V) (key : K) : Option (HashTable K V × Bool) :=
  if t.count = 0 then some (t, false)
  else
    match find_entry_index t key false with
    | none => none
    | some index =>
      if get_state t index ≠ SlotState.OCCUPIED then some (t, false)
      else
        some ({ set_state t index SlotState.DELETED with
                  entries := t.entries.set index (none, none),
                  count := t.count - 1 }, true)

/-- `hash_table_create` (hashtable.c lines 153-190), with `INITIAL_CAPACITY = 16`.
`a1`, `a2`, `a3` are the outcomes of the three allocation requests (the table
struct, the control bytes, the entries array); `none` = the C function
returns `NULL`. -/
def hash_table_create (kh : type_handler K) (vh : type_handler V)
    (a1 a2 a3 : Bool) : Option (HashTable K V) :=
  if a1 = false then none
  else if a2 = false then none
  else if a3 = false then none
  else some
    { key_handler := kh
      value_handler := vh
      capacity := 16
      count := 0
      states := List.replicate 16 SlotState.EMPTY
      entries := List.replicate 16 (none, none) }

/-- `hash_table_count` (hashtable.c lines 263-265). -/
def hash_table_count (t : HashTable K V) : Nat :=
  t.count

end HashTableC

namespace HashTableC

variable {K V : Type}

/-! ## Operation sequences and reachable states -/

/-- A mutating public operation (lookup does not mutate the table). -/
inductive Op (K V : Type) where
  | ins (k : K) (v : V)
  | del (k : K)

/-- Run a sequence of operations, with every allocation request succeeding;
`none` if some probe loop along the way never terminates. -/
def execOps (t : HashTable K V) : List (Op K V) → Option (HashTable K V)
  | [] => some t
  | Op.ins k v :: rest =>
    match hash_table_insert 1 t k v true true with
    | none => none
    | some (t', _) => execOps t' rest
  | Op.del k :: rest =>
    match hash_table_delete t k with
    | none => none
    | some (t', _) => execOps t' rest

/-- The table states reachable from `hash_table_create` by finite sequences of
`hash_table_insert` and `hash_table_delete` calls (with any allocation
outcomes and any nested-resize fuel; `hash_table_lookup` does not mutate). -/
inductive Reachable (kh : type_handler K) (vh : type_handler V) : HashTable K V → Prop where
  | create : ∀ t, hash_table_create kh vh true true true = some t → Reachable kh vh t
  | insert : ∀ t t' fuel k v a1 a2 b, Reachable kh vh t →
      hash_table_insert fuel t k v a1 a2 = some (t', b) → Reachable kh vh t'
  | delete : ∀ t t' k b, Reachable kh vh t →
      hash_table_delete t k = some (t', b) → Reachable kh vh t'

theorem reachable_execOps {kh : type_handler K} {vh : type_handler V}
    {t t' : HashTable K V} (h : Reachable kh vh t) :
    ∀ ops : List (Op K V), execOps t ops = some t' → Reachable kh vh t' := by
  intro ops
  induction ops generalizing t with
  | nil => intro he; cases he; exact h
  | cons op rest ih =>
    cases op with
    | ins k v =>
      simp only [execOps]
      cases hi : hash_table_insert 1 t k v true true with
      | none => intro he; cases he
      | some r => exact fun he => ih (Reachable.insert t r.1 1 k v true true r.2 h hi) he
    | del k =>
      simp only [execOps]
      cases hd : hash_table_delete t k with
      | none => intro he; cases he
      | some r => exact fun he => ih (Reachable.delete t r.1 k r.2 h hd) he

/-! ## A non-recursive characterization of the probe

`find_slot_spec` restates §4.3 of the specification as a function over the
explicit list of probed slots: starting at `hash(key) mod capacity` and
stepping by +1 with wraparound, the search ends at the first `Occupied` slot
whose key `equal`s the target or at the first `Empty` slot; `Deleted` slots
are passed through, and in insert mode the first `Deleted` slot passed before
the terminating `Empty` slot is returned in place of that `Empty` slot. -/

/-- Does the probe stop at slot `i` (an `Occupied` slot with an `equal` key,
or an `Empty` slot)? -/
def isHit (t : HashTable K V) (key : K) (i : Nat) : Bool :=
  match get_state t i with
  | SlotState.OCCUPIED => keyMatch t key i
  | SlotState.EMPTY => true
  | SlotState.DELETED => false

/-- Is slot `i` a tombstone? -/
def isDel (t : HashTable K V) (i : Nat) : Bool :=
  decide (get_state t i = SlotState.DELETED)

/-- The slots the probe visits: `capacity` consecutive indices (wrapping)
starting from `start`. -/
def positions (t : HashTable K V) (start : Nat) : List Nat :=
  (List.range t.capacity).map (fun j => (start + j) % t.capacity)

/-- §4.3 of the specification as a function (see the section comment). -/
def find_slot_spec (t : HashTable K V) (key : K) (insert_mode : Bool) : Option Nat :=
  let ps := positions t (hashIndex t key)
  match ps.find? (isHit t key) with
  | none => none
  | some i =>
    if insert_mode = true ∧ get_state t i = SlotState.EMPTY then
      some (match (ps.takeWhile (fun p => !isHit t key p)).find? (isDel t) with
            | some d => d
            | none => i)
    else some i

/-- The probe loop, rewritten to consume the explicit list of visited slots
(bridging step between `probe` and `find_slot_spec`). -/
def probeList (t : HashTable K V) (key : K) (ins : Bool) :
    List Nat → Option Nat → Option Nat
  | [], _ => none
  | i :: rest, tomb =>
    match get_state t i with
    | SlotState.EMPTY =>
        some (match ins, tomb with
              | true, some ti => ti
              | _, _ => i)
    | SlotState.DELETED =>
        probeList t key ins rest (if ins && tomb.isNone then some i else tomb)
    | SlotState.OCCUPIED =>
        if keyMatch t key i then some i
        else probeList t key ins rest tomb

theorem probe_eq_probeList (t : HashTable K V) (key : K) (ins : Bool) :
    ∀ (n idx : Nat) (tomb : Option Nat), idx < t.capacity →
      probe t key ins n idx tomb =
        probeList t key ins ((List.range n).map (fun j => (idx + j) % t.capacity)) tomb := by
  intro n
  induction n with
  | zero => intro idx tomb _; simp [probe, probeList]
  | succ n ih =>
    intro idx tomb hidx
    have hcap : 0 < t.capacity := Nat.lt_of_le_of_lt (Nat.zero_le _) hidx
    have hmaps : (List.range (n + 1)).map (fun j => (idx + j) % t.capacity) =
        idx :: (List.range n).map (fun j => ((idx + 1) % t.capacity + j) % t.capacity) := by
      rw [List.range_succ_eq_map, List.map_cons, List.map_map]
      refine congrArg₂ _ (by simpa using Nat.mod_eq_of_lt hidx) ?_
      refine List.map_congr_left (fun j _ => ?_)
      show (idx + (j + 1)) % t.capacity = ((idx + 1) % t.capacity + j) % t.capacity
      have h1 : idx + (j + 1) = idx + 1 + j := by omega
      rw [h1, Nat.mod_add_mod]
    rw [hmaps]
    cases hst : get_state t idx with
    | EMPTY => simp [probe, probeList, hst]
    | DELETED =>
      simp only [probe, probeList, hst]
      exact ih _ _ (Nat.mod_lt _ hcap)
    | OCCUPIED =>
      simp only [probe, probeList, hst]
      by_cases hm : keyMatch t key idx
      · simp [hm]
      · simp only [hm, if_false, Bool.false_eq_true]
        exact ih _ _ (Nat.mod_lt _ hcap)

theorem probeList_char (t : HashTable K V) (key : K) (ins : Bool) :
    ∀ (ps : List Nat) (tomb : Option Nat),
      probeList t key ins ps tomb =
        match ps.find? (isHit t key) with
        | none => none
        | some i =>
          if ins = true ∧ get_state t i = SlotState.EMPTY then
            some (match tomb with
                  | some d => d
                  | none =>
                    match (ps.takeWhile (fun p => !isHit t key p)).find? (isDel t) with
                    | some d => d
                    | none => i)
          else some i := by
  intro ps
  induction ps with
  | nil => intro tomb; simp [probeList]
  | cons i rest ih =>
    intro tomb
    cases hst : get_state t i with
    | EMPTY =>
      have hh : isHit t key i = true := by simp [isHit, hst]
      simp only [probeList, hst]
      rw [List.find?_cons_of_pos _ hh,
        List.takeWhile_cons_of_neg (by simp [hh])]
      cases ins with
      | true => cases tomb with
        | none => simp [hst]
        | some d => simp [hst]
      | false => simp [hst]
    | OCCUPIED =>
      by_cases hm : keyMatch t key i
      · have hh : isHit t key i = true := by simp [isHit, hst, hm]
        simp only [probeList, hst, hm, if_true]
        rw [List.find?_cons_of_pos _ hh]
        simp [hst]
      · have hh : isHit t key i = false := by simp [isHit, hst]; simpa using hm
        simp only [probeList, hst, hm, if_false, Bool.false_eq_true]
        rw [List.find?_cons_of_neg _ (by simp [hh]),
          List.takeWhile_cons_of_pos (by simp [hh]),
          List.find?_cons_of_neg _ (by simp [isDel, hst])]
        exact ih tomb
    | DELETED =>
      have hh : isHit t key i = false := by simp [isHit, hst]
      have hd : isDel t i = true := by simp [isDel, hst]
      simp only [probeList, hst]
      rw [List.find?_cons_of_neg _ (by simp [hh]),
        List.takeWhile_cons_of_pos (by simp [hh]),
        List.find?_cons_of_pos _ hd, ih _]
      cases hf : List.find? (isHit t key) rest with
      | none => simp
      | some i0 =>
        cases ins with
        | false => simp
        | true =>
          cases tomb with
          | none => simp
          | some d => simp

theorem find_entry_index_eq_find_slot_spec (t : HashTable K V) (key : K) (ins : Bool) :
    find_entry_index t key ins = find_slot_spec t key ins := by
  by_cases hcap : t.capacity = 0
  · unfold find_entry_index find_slot_spec positions
    rw [hcap]
    simp [probe]
  · have hidx : hashIndex t key < t.capacity := Nat.mod_lt _ (Nat.pos_of_ne_zero hcap)
    show probe t key ins t.capacity (hashIndex t key) none = _
    rw [probe_eq_probeList t key ins t.capacity _ none hidx, probeList_char]
    rfl

theorem length_positions (t : HashTable K V) (start : Nat) :
    (positions t start).length = t.capacity := by
  simp [positions]

theorem mem_positions (t : HashTable K V) (start : Nat) {i : Nat} (hi : i < t.capacity) :
    i ∈ positions t start := by
  have hcap : 0 < t.capacity := Nat.lt_of_le_of_lt (Nat.zero_le _) hi
  have hs : start % t.capacity < t.capacity := Nat.mod_lt _ hcap
  refine List.mem_map.mpr ⟨(i + t.capacity - start % t.capacity) % t.capacity,
    List.mem_range.mpr (Nat.mod_lt _ hcap), ?_⟩
  rw [Nat.add_mod_mod, ← Nat.mod_add_mod]
  have harith : start % t.capacity + (i + t.capacity - start % t.capacity) =
      i + t.capacity := by omega
  rw [harith, Nat.add_mod_right]
  exact Nat.mod_eq_of_lt hi

theorem lt_of_mem_positions {t : HashTable K V} {start p : Nat}
    (hp : p ∈ positions t start) : p < t.capacity := by
  obtain ⟨j, hj, rfl⟩ := List.mem_map.mp hp
  exact Nat.mod_lt _ (Nat.lt_of_le_of_lt (Nat.zero_le _) (List.mem_range.mp hj))

theorem nodup_positions (t : HashTable K V) (start : Nat) : (positions t start).Nodup := by
  refine List.Nodup.map_on ?_ (List.nodup_range _)
  intro j1 h1 j2 h2 heq
  rw [List.mem_range] at h1 h2
  have hm : Nat.ModEq t.capacity (start + j1) (start + j2) := heq
  have hm2 : j1 % t.capacity = j2 % t.capacity := Nat.ModEq.add_left_cancel' start hm
  rwa [Nat.mod_eq_of_lt h1, Nat.mod_eq_of_lt h2] at hm2

theorem find_entry_index_lt {t : HashTable K V} {key : K} {ins : Bool} {i : Nat}
    (h : find_entry_index t key ins = some i) : i < t.capacity := by
  rw [find_entry_index_eq_find_slot_spec] at h
  unfold find_slot_spec at h
  cases hf : (positions t (hashIndex t key)).find? (isHit t key) with
  | none => simp only [hf] at h; cases h
  | some i0 =>
    simp only [hf] at h
    split at h
    · cases hd : ((positions t (hashIndex t key)).takeWhile
          (fun p => !isHit t key p)).find? (isDel t) with
      | none =>
        simp only [hd] at h
        cases h
        exact lt_of_mem_positions (List.mem_of_find?_eq_some hf)
      | some d =>
        simp only [hd] at h
        cases h
        exact lt_of_mem_positions
          ((List.takeWhile_sublist _).subset (List.mem_of_find?_eq_some hd))
    · cases h
      exact lt_of_mem_positions (List.mem_of_find?_eq_some hf)

/-! ## A concrete instantiation: `Nat` keys and values

The behavior set is well-behaved: `copy` is a genuine clone, `equal` is
equality, `hash` is the identity (the caller fully controls probe starts,
which is exactly the situation the table must cope with). -/

def natHandler : type_handler Nat :=
  { copy := fun n => some n, equal := fun a b => decide (a = b), hash := fun n => n }

/-- The table `hash_table_create natHandler natHandler true true true` returns. -/
def table0 : HashTable Nat Nat :=
  { key_handler := natHandler
    value_handler := natHandler
    capacity := 16
    count := 0
    states := List.replicate 16 SlotState.EMPTY
    entries := List.replicate 16 (none, none) }

/-- Twelve inserts (filling slots 0-11), then four delete/insert pairs, each
deleting one of the keys 0-3 (leaving a tombstone in its slot) and inserting
a fresh key that hashes directly onto one of the still-empty slots 12-15.
The load factor check (`count + 1 > 12` at capacity 16) never fires: `count`
never exceeds 12.  The final table has 12 `OCCUPIED` slots, 4 `DELETED`
slots, and no `EMPTY` slot at all. -/
def exhaustOps : List (Op Nat Nat) :=
  [Op.ins 0 0, Op.ins 1 1, Op.ins 2 2, Op.ins 3 3, Op.ins 4 4, Op.ins 5 5,
   Op.ins 6 6, Op.ins 7 7, Op.ins 8 8, Op.ins 9 9, Op.ins 10 10, Op.ins 11 11,
   Op.del 0, Op.ins 12 12, Op.del 1, Op.ins 13 13, Op.del 2, Op.ins 14 14,
   Op.del 3, Op.ins 15 15]

/-- The tombstone-saturated table `exhaustOps` produces. -/
def tStar : HashTable Nat Nat := (execOps table0 exhaustOps).getD table0

theorem tStar_reachable : Reachable natHandler natHandler tStar :=
  reachable_execOps (Reachable.create table0 rfl) exhaustOps rfl

/-- **C1** (refuting evidence).  The claim states that the linear-probing
search terminates in every reachable table, in both modes, because an `Empty`
slot is always reachable from any probe start.  It is false: the reachable
table `tStar` (12 occupied slots, 4 tombstones, zero `Empty` slots — the
load-factor check counts only occupied slots, so tombstone accumulation can
exhaust the `Empty` slots without ever triggering a resize) makes the probe
loop for the absent key `16` cycle forever in both lookup and insert mode
(`none` = the fuel-`capacity` search found no terminator, which is exactly
non-termination of the C loop, see the header comment). -/
theorem C1_probe_divergence_in_reachable_state :
    Reachable natHandler natHandler tStar ∧
    find_entry_index tStar 16 false = none ∧
    find_entry_index tStar 16 true = none :=
  ⟨tStar_reachable, rfl, rfl⟩

/-- `insertEntry` (lines 213-231) always returns `true` when it returns:
both its branches end in `return true`. -/
theorem insertEntry_bool_true {t t' : HashTable K V} {k : K} {v : V} {b : Bool}
    (h : insertEntry t k v = some (t', b)) : b = true := by
  unfold insertEntry at h
  cases hf : find_entry_index t k true with
  | none => rw [hf] at h; cases h
  | some i =>
    simp only [hf] at h
    by_cases hocc : get_state t i = SlotState.OCCUPIED
    · rw [if_neg (not_not_intro hocc)] at h
      cases h; rfl
    · rw [if_pos hocc] at h
      cases h; rfl

/-- `resizeWith` reports allocation failure (C's early `return false`) exactly
when one of its two allocation requests fails, and it touches nothing in that
case: both failing paths return before any mutation (hashtable.c lines
110-119). -/
theorem resizeWith_eq_some_none_iff
    (ins : HashTable K V → K → V → Option (HashTable K V × Bool))
    (t : HashTable K V) (nc : Nat) (a1 a2 : Bool) :
    resizeWith ins t nc a1 a2 = some none ↔ (a1 = false ∨ a2 = false) := by
  unfold resizeWith
  cases a1 with
  | false => simp
  | true =>
    cases a2 with
    | false => simp
    | true =>
      simp only [Bool.true_eq_false, if_false]
      constructor
      · intro h
        cases hr : rehashLoopWith ins (freshStorage t nc) (t.states.zip t.entries) with
        | none => rw [hr] at h; cases h
        | some t1 => rw [hr] at h; cases h
      · rintro (h | h) <;> cases h

/-- **C2**.  If an insert triggers a resize and either of the resize's two
storage allocations fails, the insert returns failure (`false`) and the table
it hands back is exactly the prior table: `resize` returns `false` before
mutating anything, and `hash_table_insert` forwards the untouched table. -/
theorem C2_resize_alloc_failure_leaves_table_unchanged
    (t : HashTable K V) (k : K) (v : V) (fuel : Nat) (a1 a2 : Bool)
    (hload : 4 * (t.count + 1) > 3 * t.capacity)
    (hfail : a1 = false ∨ a2 = false) :
    hash_table_insert (fuel + 1) t k v a1 a2 = some (t, false) := by
  have hr : resizeWith (fun t' k' v' => hash_table_insert fuel t' k' v' a1 a2)
      t (2 * t.capacity) a1 a2 = some none :=
    (resizeWith_eq_some_none_iff _ t _ a1 a2).mpr hfail
  simp only [hash_table_insert, if_pos hload, hr]

/-- **C2** witness: on the reachable table `tStar` (count 12, capacity 16, so
the next insert triggers a resize), an insert whose first allocation request
fails returns `false` with the table unchanged. -/
theorem C2_witness : hash_table_insert 1 tStar 99 99 false true = some (tStar, false) :=
  C2_resize_alloc_failure_leaves_table_unchanged tStar 99 99 0 false true
    (by decide) (Or.inl rfl)

/-- When the load-factor check does not fire, `hash_table_insert` is exactly
lines 213-231 (`insertEntry`), whatever the fuel and allocation outcomes. -/
theorem hash_table_insert_of_low_load {t : HashTable K V} {k : K} {v : V}
    (fuel : Nat) (a1 a2 : Bool) (h : ¬ 4 * (t.count + 1) > 3 * t.capacity) :
    hash_table_insert fuel t k v a1 a2 = insertEntry t k v := by
  cases fuel <;> simp only [hash_table_insert, if_neg h]

/-- **C10**.  First conjunct: `hash_table_insert` returns `false` only on the
resize-allocation-failure path (and then hands back the untouched table) —
there is no other `return false` in it.  Second conjunct: if the
caller-supplied clone of the key fails (returns `NULL`) while inserting into
a fresh (non-occupied) slot, the insert nevertheless marks the slot
`OCCUPIED`, stores the absent (`NULL`) key and the cloned value, increments
`count`, and returns `true`: the result of `copy` is never checked. -/
theorem C10_clone_failure_is_silent :
    (∀ (t t' : HashTable K V) (k : K) (v : V) (fuel : Nat) (a1 a2 : Bool),
        hash_table_insert fuel t k v a1 a2 = some (t', false) →
        4 * (t.count + 1) > 3 * t.capacity ∧ (a1 = false ∨ a2 = false) ∧ t' = t) ∧
    (∀ (t : HashTable K V) (k : K) (v : V) (i fuel : Nat) (a1 a2 : Bool),
        ¬ 4 * (t.count + 1) > 3 * t.capacity →
        find_entry_index t k true = some i →
        get_state t i ≠ SlotState.OCCUPIED →
        t.key_handler.copy k = none →
        hash_table_insert fuel t k v a1 a2 =
          some ({ set_state t i SlotState.OCCUPIED with
                    entries := t.entries.set i (none, t.value_handler.copy v),
                    count := t.count + 1 }, true)) := by
  constructor
  · intro t t' k v fuel a1 a2 h
    by_cases hload : 4 * (t.count + 1) > 3 * t.capacity
    · cases fuel with
      | zero => rw [hash_table_insert, if_pos hload] at h; cases h
      | succ fuel =>
        rw [hash_table_insert, if_pos hload] at h
        cases hr : resizeWith (fun t' k' v' => hash_table_insert fuel t' k' v' a1 a2)
            t (2 * t.capacity) a1 a2 with
        | none => rw [hr] at h; cases h
        | some o =>
          cases o with
          | none =>
            rw [hr] at h
            cases h
            exact ⟨hload, (resizeWith_eq_some_none_iff _ t _ a1 a2).mp hr, rfl⟩
          | some t1 =>
            rw [hr] at h
            cases insertEntry_bool_true h
    · rw [hash_table_insert_of_low_load fuel a1 a2 hload] at h
      cases insertEntry_bool_true h
  · intro t k v i fuel a1 a2 hload hfind hocc hclone
    rw [hash_table_insert_of_low_load fuel a1 a2 hload]
    unfold insertEntry
    simp only [hfind, if_pos hocc, hclone]

/-- A behavior set whose `copy` always fails (always returns `NULL`). -/
def failCopyHandler : type_handler Nat :=
  { copy := fun _ => none, equal := fun a b => decide (a = b), hash := fun n => n }

/-- An empty 16-slot table whose key clone always fails. -/
def cfTable : HashTable Nat Nat := { table0 with key_handler := failCopyHandler }

/-- **C10** witness: inserting key 5 into the empty clone-failing table puts
`(NULL, some 7)` into slot 5, marks it occupied, bumps `count` to 1 and
returns `true`. -/
theorem C10_witness :
    hash_table_insert 1 cfTable 5 7 true true =
      some ({ set_state cfTable 5 SlotState.OCCUPIED with
                entries := cfTable.entries.set 5 (none, cfTable.value_handler.copy 7),
                count := cfTable.count + 1 }, true) :=
  C10_clone_failure_is_silent.2 cfTable 5 7 5 1 true true
    (by decide) rfl (by decide) rfl

/-! ## Counting occupied slots; structural well-formedness -/

/-- Number of `STATE_OCCUPIED` slots. -/
def occCount (t : HashTable K V) : Nat :=
  t.states.countP (fun s => decide (s = SlotState.OCCUPIED))

/-- Number of `STATE_DELETED` slots (tombstones). -/
def delCount (t : HashTable K V) : Nat :=
  t.states.countP (fun s => decide (s = SlotState.DELETED))

/-- Structural well-formedness: the two per-slot arrays have length `capacity`
and `count` is the number of occupied slots. -/
def WFc (t : HashTable K V) : Prop :=
  t.states.length = t.capacity ∧ t.entries.length = t.capacity ∧ t.count = occCount t

theorem countP_set_add {α : Type} (p : α → Bool) (l : List α) (n : Nat) (a d : α)
    (hn : n < l.length) :
    (l.set n a).countP p + (if p (l.getD n d) then 1 else 0) =
      l.countP p + (if p a then 1 else 0) := by
  induction l generalizing n with
  | nil => cases hn
  | cons x xs ih =>
    cases n with
    | zero =>
      simp only [List.set_cons_zero, List.countP_cons, List.getD_cons_zero]
      omega
    | succ n =>
      simp only [List.set_cons_succ, List.countP_cons, List.getD_cons_succ]
      have := ih n (by simpa using hn)
      omega

theorem occCount_set (t : HashTable K V) (i : Nat) (s : SlotState)
    (hi : i < t.states.length) :
    occCount (set_state t i s) + (if get_state t i = SlotState.OCCUPIED then 1 else 0) =
      occCount t + (if s = SlotState.OCCUPIED then 1 else 0) := by
  have h := countP_set_add (fun s => decide (s = SlotState.OCCUPIED))
    t.states i s SlotState.EMPTY hi
  simp only [decide_eq_true_eq] at h
  simpa [occCount, set_state, get_state] using h

theorem countP_zip_fst {α β : Type} (q : α → Bool) :
    ∀ (l1 : List α) (l2 : List β), l1.length = l2.length →
      (l1.zip l2).countP (fun p => q p.1) = l1.countP q := by
  intro l1
  induction l1 with
  | nil => intro l2 _; simp
  | cons x xs ih =>
    intro l2 hlen
    cases l2 with
    | nil => cases hlen
    | cons y ys =>
      simp only [List.zip_cons_cons, List.countP_cons]
      rw [ih ys (by simpa using hlen)]

/-- Case analysis of `insertEntry` results (lines 213-231 of the C source). -/
theorem insertEntry_cases {t t' : HashTable K V} {k : K} {v : V} {b : Bool}
    (h : insertEntry t k v = some (t', b)) :
    b = true ∧ ∃ i, find_entry_index t k true = some i ∧ i < t.capacity ∧
      ((get_state t i ≠ SlotState.OCCUPIED ∧
          t' = { set_state t i SlotState.OCCUPIED with
                   entries := t.entries.set i (t.key_handler.copy k, t.value_handler.copy v),
                   count := t.count + 1 }) ∨
        (get_state t i = SlotState.OCCUPIED ∧
          t' = { t with
                   entries := t.entries.set i ((entryAt t i).1, t.value_handler.copy v) })) := by
  unfold insertEntry at h
  cases hf : find_entry_index t k true with
  | none => rw [hf] at h; cases h
  | some i =>
    simp only [hf] at h
    by_cases hocc : get_state t i = SlotState.OCCUPIED
    · rw [if_neg (not_not_intro hocc)] at h
      cases h
      exact ⟨rfl, i, rfl, find_entry_index_lt hf, Or.inr ⟨hocc, rfl⟩⟩
    · rw [if_pos hocc] at h
      cases h
      exact ⟨rfl, i, rfl, find_entry_index_lt hf, Or.inl ⟨hocc, rfl⟩⟩

theorem insertEntry_WFc {t t' : HashTable K V} {k : K} {v : V} {b : Bool}
    (hw : WFc t) (h : insertEntry t k v = some (t', b)) :
    WFc t' ∧ t'.capacity = t.capacity ∧ t'.count ≤ t.count + 1 ∧
      t'.key_handler = t.key_handler ∧ t'.value_handler = t.value_handler := by
  obtain ⟨hw1, hw2, hw3⟩ := hw
  obtain ⟨-, i, hfind, hi, hcase⟩ := insertEntry_cases h
  rcases hcase with ⟨hocc, rfl⟩ | ⟨hocc, rfl⟩
  · have hilen : i < t.states.length := hw1 ▸ hi
    have hocc' := occCount_set t i SlotState.OCCUPIED hilen
    rw [if_neg hocc, if_pos rfl] at hocc'
    refine ⟨⟨?_, ?_, ?_⟩, rfl, ?_, rfl, rfl⟩
    · simpa [set_state] using hw1
    · simpa using hw2
    · show t.count + 1 = occCount (set_state t i SlotState.OCCUPIED)
      omega
    · exact Nat.le_refl _
  · exact ⟨⟨hw1, by simpa using hw2, hw3⟩, rfl, Nat.le_succ _, rfl, rfl⟩

/-- Upper bound for the number of inserts the rehash loop performs. -/
def occItems (L : List (SlotState × (Option K × Option V))) : Nat :=
  L.countP (fun p => decide (p.1 = SlotState.OCCUPIED))

/-- Running the rehash loop on a table whose load stays below the threshold
throughout never triggers a nested resize; it preserves structural
well-formedness, the capacity and the handlers, and grows `count` by at most
the number of occupied items processed. -/
theorem rehashLoopWith_insert_bound (fuel : Nat) (a1 a2 : Bool) :
    ∀ (L : List (SlotState × (Option K × Option V))) (u u' : HashTable K V),
      WFc u → 4 * (u.count + occItems L) ≤ 3 * u.capacity →
      rehashLoopWith (fun x k v => hash_table_insert fuel x k v a1 a2) u L = some u' →
      WFc u' ∧ u'.capacity = u.capacity ∧ u'.count ≤ u.count + occItems L ∧
        u'.key_handler = u.key_handler ∧ u'.value_handler = u.value_handler := by
  intro L
  induction L with
  | nil =>
    intro u u' hw _ h
    cases h
    exact ⟨hw, rfl, Nat.le_refl _, rfl, rfl⟩
  | cons p rest ih =>
    intro u u' hw hload h
    obtain ⟨st, k?, v?⟩ := p
    have hoccitems : occItems ((st, k?, v?) :: rest) =
        occItems rest + (if st = SlotState.OCCUPIED then 1 else 0) := by
      simp [occItems, List.countP_cons]
    cases st with
    | EMPTY =>
      simp only [rehashLoopWith] at h
      have := ih u u' hw (by simp [hoccitems] at hload ⊢; omega) h
      simpa [hoccitems] using this
    | DELETED =>
      simp only [rehashLoopWith] at h
      have := ih u u' hw (by simp [hoccitems] at hload ⊢; omega) h
      simpa [hoccitems] using this
    | OCCUPIED =>
      rw [hoccitems, if_pos rfl] at hload
      cases k? with
      | none =>
        simp only [rehashLoopWith] at h
        have := ih u u' hw (by omega) h
        rw [hoccitems, if_pos rfl]
        exact ⟨this.1, this.2.1, by omega, this.2.2.2⟩
      | some k =>
        cases v? with
        | none =>
          simp only [rehashLoopWith] at h
          have := ih u u' hw (by omega) h
          rw [hoccitems, if_pos rfl]
          exact ⟨this.1, this.2.1, by omega, this.2.2.2⟩
        | some v =>
          simp only [rehashLoopWith] at h
          have hld : ¬ 4 * (u.count + 1) > 3 * u.capacity := by omega
          rw [hash_table_insert_of_low_load fuel a1 a2 hld] at h
          cases hi : insertEntry u k v with
          | none => rw [hi] at h; cases h
          | some r =>
            obtain ⟨u1, b1⟩ := r
            rw [hi] at h
            obtain ⟨hw1, hcap1, hcnt1, hkh1, hvh1⟩ := insertEntry_WFc hw hi
            obtain ⟨hw', hcap', hcnt', hkh', hvh'⟩ :=
              ih u1 u' hw1 (by rw [hcap1]; omega) h
            rw [hoccitems, if_pos rfl]
            refine ⟨hw', by rw [hcap', hcap1], by omega,
              by rw [hkh', hkh1], by rw [hvh', hvh1]⟩

theorem freshStorage_WFc (t : HashTable K V) (nc : Nat) : WFc (freshStorage t nc) := by
  refine ⟨by simp [freshStorage], by simp [freshStorage], ?_⟩
  show 0 = occCount (freshStorage t nc)
  simp [occCount, freshStorage, List.countP_replicate]

/-- What a successful resize (as called from `hash_table_insert`) produces:
structural well-formedness, the doubled capacity, unchanged handlers, and a
count bounded by the old one. -/
theorem resizeWith_success (fuel : Nat) {t t1 : HashTable K V} {a1 a2 : Bool}
    (hw : WFc t) (hload : 4 * t.count ≤ 3 * t.capacity)
    (hr : resizeWith (fun x k v => hash_table_insert fuel x k v a1 a2)
        t (2 * t.capacity) a1 a2 = some (some t1)) :
    WFc t1 ∧ t1.capacity = 2 * t.capacity ∧ t1.count ≤ t.count ∧
      t1.key_handler = t.key_handler ∧ t1.value_handler = t.value_handler := by
  obtain ⟨hw1, hw2, hw3⟩ := hw
  unfold resizeWith at hr
  by_cases h1 : a1 = false
  · rw [if_pos h1] at hr; cases hr
  rw [if_neg h1] at hr
  by_cases h2 : a2 = false
  · rw [if_pos h2] at hr; cases hr
  rw [if_neg h2] at hr
  cases hrl : rehashLoopWith (fun x k v => hash_table_insert fuel x k v a1 a2)
      (freshStorage t (2 * t.capacity)) (t.states.zip t.entries) with
  | none => rw [hrl] at hr; cases hr
  | some t2 =>
    rw [hrl] at hr
    have ht21 : t2 = t1 := by
      injection hr with h'
      injection h'
    subst ht21
    have hocc : occItems (t.states.zip t.entries) = occCount t := by
      unfold occItems occCount
      exact countP_zip_fst (fun s => decide (s = SlotState.OCCUPIED))
        t.states t.entries (by rw [hw1, hw2])
    have hfr := freshStorage_WFc t (2 * t.capacity)
    have hcapF : (freshStorage t (2 * t.capacity)).capacity = 2 * t.capacity := rfl
    have hcntF : (freshStorage t (2 * t.capacity)).count = 0 := rfl
    obtain ⟨hw', hcap', hcnt', hkh', hvh'⟩ :=
      rehashLoopWith_insert_bound fuel a1 a2 (t.states.zip t.entries)
        (freshStorage t (2 * t.capacity)) t2 hfr
        (by rw [hocc, hcapF, hcntF]; omega) hrl
    rw [hcapF] at hcap'
    rw [hcntF, hocc] at hcnt'
    exact ⟨hw', hcap', by omega, hkh', hvh'⟩

/-- Effect of one `hash_table_insert` call on a well-formed table within the
load-factor bound: well-formedness is preserved, the capacity stays or
doubles, the bound is restored, and `count` grows by at most one. -/
theorem hash_table_insert_preserves (fuel : Nat) {t t' : HashTable K V}
    {k : K} {v : V} {a1 a2 : Bool} {b : Bool}
    (hw : WFc t) (hload : 4 * t.count ≤ 3 * t.capacity) (hcap16 : 16 ≤ t.capacity)
    (h : hash_table_insert fuel t k v a1 a2 = some (t', b)) :
    WFc t' ∧ (t'.capacity = t.capacity ∨ t'.capacity = 2 * t.capacity) ∧
      4 * t'.count ≤ 3 * t'.capacity ∧ t'.count ≤ t.count + 1 ∧
      t'.key_handler = t.key_handler ∧ t'.value_handler = t.value_handler := by
  by_cases hl : 4 * (t.count + 1) > 3 * t.capacity
  · cases fuel with
    | zero => rw [hash_table_insert, if_pos hl] at h; cases h
    | succ fuel =>
      rw [hash_table_insert, if_pos hl] at h
      cases hr : resizeWith (fun x k' v' => hash_table_insert fuel x k' v' a1 a2)
          t (2 * t.capacity) a1 a2 with
      | none => rw [hr] at h; cases h
      | some o =>
        cases o with
        | none =>
          rw [hr] at h
          cases h
          exact ⟨hw, Or.inl rfl, hload, Nat.le_succ _, rfl, rfl⟩
        | some t1 =>
          rw [hr] at h
          obtain ⟨hw1, hcap1, hcnt1, hkh1, hvh1⟩ := resizeWith_success fuel hw hload hr
          obtain ⟨hw', hcap', hcnt', hkh', hvh'⟩ := insertEntry_WFc hw1 h
          refine ⟨hw', Or.inr (by rw [hcap', hcap1]), ?_, by omega,
            by rw [hkh', hkh1], by rw [hvh', hvh1]⟩
          rw [hcap', hcap1]
          omega
  · rw [hash_table_insert_of_low_load fuel a1 a2 hl] at h
    obtain ⟨hw', hcap', hcnt', hkh', hvh'⟩ := insertEntry_WFc hw h
    exact ⟨hw', Or.inl hcap', by omega, hcnt', hkh', hvh'⟩

/-- Effect of one `hash_table_delete` call on a well-formed table:
well-formedness is preserved, the capacity and handlers never change, and
`count` never grows. -/
theorem hash_table_delete_preserves {t t' : HashTable K V} {key : K} {b : Bool}
    (hw : WFc t) (h : hash_table_delete t key = some (t', b)) :
    WFc t' ∧ t'.capacity = t.capacity ∧ t'.count ≤ t.count ∧
      t'.key_handler = t.key_handler ∧ t'.value_handler = t.value_handler := by
  obtain ⟨hw1, hw2, hw3⟩ := hw
  unfold hash_table_delete at h
  by_cases h0 : t.count = 0
  · rw [if_pos h0] at h
    cases h
    exact ⟨⟨hw1, hw2, hw3⟩, rfl, Nat.le_refl _, rfl, rfl⟩
  rw [if_neg h0] at h
  cases hf : find_entry_index t key false with
  | none => rw [hf] at h; cases h
  | some i =>
    simp only [hf] at h
    by_cases hocc : get_state t i = SlotState.OCCUPIED
    · rw [if_neg (not_not_intro hocc)] at h
      cases h
      have hilen : i < t.states.length := hw1 ▸ find_entry_index_lt hf
      have hset := occCount_set t i SlotState.DELETED hilen
      rw [if_pos hocc, if_neg (by simp)] at hset
      refine ⟨⟨by simpa [set_state] using hw1, by simpa using hw2, ?_⟩,
        rfl, Nat.sub_le _ _, rfl, rfl⟩
      show t.count - 1 = occCount (set_state t i SlotState.DELETED)
      omega
    · rw [if_pos hocc] at h
      cases h
      exact ⟨⟨hw1, hw2, hw3⟩, rfl, Nat.le_refl _, rfl, rfl⟩

/-- Every reachable table is structurally well-formed, satisfies the
load-factor bound, and has capacity `16 * 2 ^ m` for some `m`. -/
theorem reachable_inv {kh : type_handler K} {vh : type_handler V}
    {t : HashTable K V} (h : Reachable kh vh t) :
    WFc t ∧ 4 * t.count ≤ 3 * t.capacity ∧ ∃ m, t.capacity = 16 * 2 ^ m := by
  induction h with
  | create t hc =>
    unfold hash_table_create at hc
    simp only [if_neg (by simp : ¬ (true = false))] at hc
    cases hc
    refine ⟨⟨by simp, by simp, ?_⟩, by simp, 0, by simp⟩
    show 0 = occCount _
    simp [occCount, List.countP_eq_zero]
  | insert t t' fuel k v a1 a2 b hre hi ih =>
    obtain ⟨hw, hl, m, hm⟩ := ih
    have hcap16 : 16 ≤ t.capacity := by
      rw [hm]
      have : 1 ≤ 2 ^ m := Nat.one_le_two_pow
      omega
    obtain ⟨hw', hcap', hl', -, -, -⟩ := hash_table_insert_preserves fuel hw hl hcap16 hi
    refine ⟨hw', hl', ?_⟩
    rcases hcap' with hc | hc
    · exact ⟨m, by rw [hc, hm]⟩
    · refine ⟨m + 1, ?_⟩
      rw [hc, hm, pow_succ]
      ring
  | delete t t' key b hre hd ih =>
    obtain ⟨hw, hl, m, hm⟩ := ih
    obtain ⟨hw', hcap', hcnt', -, -⟩ := hash_table_delete_preserves hw hd
    exact ⟨hw', by omega, m, by rw [hcap', hm]⟩

/-- Full case analysis of `hash_table_delete` results (lines 243-261). -/
theorem hash_table_delete_cases {t t' : HashTable K V} {key : K} {b : Bool}
    (h : hash_table_delete t key = some (t', b)) :
    (b = false ∧ t' = t ∧
      (t.count = 0 ∨ ∃ i, find_entry_index t key false = some i ∧
        get_state t i ≠ SlotState.OCCUPIED)) ∨
    (b = true ∧ t.count ≠ 0 ∧ ∃ i, find_entry_index t key false = some i ∧
      get_state t i = SlotState.OCCUPIED ∧
      t' = { set_state t i SlotState.DELETED with
               entries := t.entries.set i (none, none),
               count := t.count - 1 }) := by
  unfold hash_table_delete at h
  by_cases h0 : t.count = 0
  · rw [if_pos h0] at h
    cases h
    exact Or.inl ⟨rfl, rfl, Or.inl h0⟩
  rw [if_neg h0] at h
  cases hf : find_entry_index t key false with
  | none => rw [hf] at h; cases h
  | some i =>
    simp only [hf] at h
    by_cases hocc : get_state t i = SlotState.OCCUPIED
    · rw [if_neg (not_not_intro hocc)] at h
      cases h
      exact Or.inr ⟨rfl, h0, i, rfl, hocc, rfl⟩
    · rw [if_pos hocc] at h
      cases h
      exact Or.inl ⟨rfl, rfl, Or.inr ⟨i, rfl, hocc⟩⟩

/-- **C3**.  After every successful insert performed on a reachable table the
load-factor invariant `count ≤ capacity × 0.75` holds on the resulting table
(stated exactly, as `4 * count ≤ 3 * capacity`); when the insert triggered a
resize, the resize restored the bound before the insert returned. -/
theorem C3_load_factor_bound_after_insert {kh : type_handler K} {vh : type_handler V}
    {t t' : HashTable K V} {k : K} {v : V} {fuel : Nat} {a1 a2 : Bool}
    (hre : Reachable kh vh t)
    (h : hash_table_insert fuel t k v a1 a2 = some (t', true)) :
    4 * t'.count ≤ 3 * t'.capacity := by
  obtain ⟨hw, hl, m, hm⟩ := reachable_inv hre
  have hcap16 : 16 ≤ t.capacity := by
    rw [hm]
    have : 1 ≤ 2 ^ m := Nat.one_le_two_pow
    omega
  exact (hash_table_insert_preserves fuel hw hl hcap16 h).2.2.1

/-- The table produced by inserting `(1, 2)` into the fresh table. -/
def table0c : HashTable Nat Nat :=
  ((hash_table_insert 1 table0 1 2 true true).getD (table0, false)).1

/-- **C3** witness: the bound, instantiated after one concrete insert. -/
theorem C3_witness : 4 * table0c.count ≤ 3 * table0c.capacity :=
  C3_load_factor_bound_after_insert (Reachable.create table0 rfl)
    (rfl : hash_table_insert 1 table0 1 2 true true = some (table0c, true))

/-- **C9**.  Creation yields exactly the table with capacity 16, count 0 and
all slots `Empty`; every reachable table has capacity `16 * 2 ^ m ≥ 16` (a
power of two ≥ 16); an insert either keeps the capacity or doubles it (the
only resize call is `resize(table, capacity * 2)`), and a delete never
changes it — so the capacity never shrinks. -/
theorem C9_capacity_power_of_two (kh : type_handler K) (vh : type_handler V) :
    (hash_table_create kh vh true true true = some
        { key_handler := kh, value_handler := vh, capacity := 16, count := 0,
          states := List.replicate 16 SlotState.EMPTY,
          entries := List.replicate 16 (none, none) }) ∧
    (∀ t : HashTable K V, Reachable kh vh t →
      16 ≤ t.capacity ∧ ∃ m, t.capacity = 16 * 2 ^ m) ∧
    (∀ (t t' : HashTable K V) (fuel : Nat) (k : K) (v : V) (a1 a2 b : Bool),
        Reachable kh vh t → hash_table_insert fuel t k v a1 a2 = some (t', b) →
        t.capacity ≤ t'.capacity ∧
          (t'.capacity = t.capacity ∨ t'.capacity = 2 * t.capacity)) ∧
    (∀ (t t' : HashTable K V) (key : K) (b : Bool),
        hash_table_delete t key = some (t', b) → t'.capacity = t.capacity) := by
  refine ⟨rfl, ?_, ?_, ?_⟩
  · intro t hre
    obtain ⟨-, -, m, hm⟩ := reachable_inv hre
    refine ⟨?_, m, hm⟩
    rw [hm]
    have : 1 ≤ 2 ^ m := Nat.one_le_two_pow
    omega
  · intro t t' fuel k v a1 a2 b hre hi
    obtain ⟨hw, hl, m, hm⟩ := reachable_inv hre
    have hcap16 : 16 ≤ t.capacity := by
      rw [hm]
      have : 1 ≤ 2 ^ m := Nat.one_le_two_pow
      omega
    obtain ⟨-, hcap, -, -, -, -⟩ := hash_table_insert_preserves fuel hw hl hcap16 hi
    rcases hcap with hc | hc
    · exact ⟨by omega, Or.inl hc⟩
    · exact ⟨by omega, Or.inr hc⟩
  · intro t t' key b hd
    rcases hash_table_delete_cases hd with ⟨-, rfl, -⟩ | ⟨-, -, i, -, -, rfl⟩
    · rfl
    · rfl

/-- **C9** witness: the reachable table `tStar` has capacity a power of two
at least 16. -/
theorem C9_witness : 16 ≤ tStar.capacity ∧ ∃ m, tStar.capacity = 16 * 2 ^ m :=
  (C9_capacity_power_of_two natHandler natHandler).2.1 tStar tStar_reachable

/-- **C8**.  The probe is the deterministic linear search of §4.3: it starts
at `hash(key) mod capacity` and steps by +1 with wraparound; `Deleted` slots
never terminate it; it ends at the first `Occupied` slot with an `equal` key
or at the first `Empty` slot, and in insert mode the first `Deleted` slot
passed is returned in place of the terminating `Empty` slot exactly when no
occupied equal-key slot was found along the probe sequence (`find_slot_spec`
is §4.3 verbatim; no assumptions on the table are needed). -/
theorem C8_probe_follows_spec (t : HashTable K V) (key : K) (ins : Bool) :
    find_entry_index t key ins = find_slot_spec t key ins :=
  find_entry_index_eq_find_slot_spec t key ins

/-! ## Probe decompositions and the effect of a single slot write -/

theorem getD_set_self {α : Type} (l : List α) (i : Nat) (a d : α) (h : i < l.length) :
    (l.set i a).getD i d = a := by
  simp [List.getD_eq_getElem?_getD, List.getElem?_set_self h]

theorem getD_set_ne {α : Type} (l : List α) (i j : Nat) (a d : α) (h : i ≠ j) :
    (l.set i a).getD j d = l.getD j d := by
  simp [List.getD_eq_getElem?_getD, List.getElem?_set_ne h]

theorem getD_mem_of_lt {α : Type} (l : List α) (i : Nat) (d : α) (h : i < l.length) :
    l.getD i d ∈ l := by
  rw [List.getD_eq_getElem?_getD, List.getElem?_eq_getElem h]
  exact List.getElem_mem h

theorem positions_congr {t t' : HashTable K V} (h : t'.capacity = t.capacity)
    (start : Nat) : positions t' start = positions t start := by
  simp [positions, h]

theorem hashIndex_congr {t t' : HashTable K V} (hkh : t'.key_handler = t.key_handler)
    (hcap : t'.capacity = t.capacity) (k : K) : hashIndex t' k = hashIndex t k := by
  simp [hashIndex, hkh, hcap]

theorem isHit_congr_at {t t' : HashTable K V} {k : K} {j : Nat}
    (hst : get_state t' j = get_state t j) (hkm : keyMatch t' k j = keyMatch t k j) :
    isHit t' k j = isHit t k j := by
  unfold isHit
  rw [hst, hkm]

theorem not_mem_pre_of_nodup {α : Type} {l₁ l₂ : List α} {a : α}
    (h : (l₁ ++ a :: l₂).Nodup) : a ∉ l₁ := by
  have := (List.nodup_cons.mp (List.nodup_middle.mp h)).1
  intro hmem
  exact this (List.mem_append.mpr (Or.inl hmem))

/-- If the probed slot list splits as `pre ++ i :: suf` with no terminator in
`pre` and a non-`Empty` terminator at `i`, the probe returns `i` in both
modes. -/
theorem find_at_first_hit {t : HashTable K V} {k : K} {i : Nat} {pre suf : List Nat}
    (hps : positions t (hashIndex t k) = pre ++ i :: suf)
    (hpre : ∀ x ∈ pre, isHit t k x = false)
    (hi : isHit t k i = true)
    (hne : get_state t i ≠ SlotState.EMPTY) :
    find_entry_index t k false = some i ∧ find_entry_index t k true = some i := by
  have hf : (positions t (hashIndex t k)).find? (isHit t k) = some i := by
    rw [hps, List.find?_append, List.find?_eq_none.mpr
      (fun x hx => by simp [hpre x hx]), List.find?_cons_of_pos _ hi, Option.none_or]
  rw [find_entry_index_eq_find_slot_spec, find_entry_index_eq_find_slot_spec]
  unfold find_slot_spec
  constructor <;> simp [hf, hne]

/-- Decomposition of an insert-mode probe that lands on a non-occupied slot:
the probed list splits as `pre ++ i :: suf` with no terminator in `pre`. -/
theorem find_insert_decomp {t : HashTable K V} {k : K} {i : Nat}
    (hfind : find_entry_index t k true = some i)
    (hocc : get_state t i ≠ SlotState.OCCUPIED) :
    ∃ pre suf, positions t (hashIndex t k) = pre ++ i :: suf ∧
      ∀ x ∈ pre, isHit t k x = false := by
  rw [find_entry_index_eq_find_slot_spec] at hfind
  unfold find_slot_spec at hfind
  cases hf : (positions t (hashIndex t k)).find? (isHit t k) with
  | none => simp only [hf] at hfind; cases hfind
  | some e =>
    simp only [hf] at hfind
    obtain ⟨hhite, as, bs, hps, hpreAs⟩ := List.find?_eq_some.mp hf
    have hpreAs' : ∀ x ∈ as, isHit t k x = false := by
      intro x hx
      simpa using hpreAs x hx
    by_cases hE : get_state t e = SlotState.EMPTY
    · rw [if_pos ⟨trivial, hE⟩] at hfind
      have htake : (positions t (hashIndex t k)).takeWhile (fun p => !isHit t k p) = as := by
        rw [hps, List.takeWhile_append_of_pos (fun x hx => by simp [hpreAs' x hx]),
          List.takeWhile_cons_of_neg (by simp [hhite])]
        simp
      rw [htake] at hfind
      cases hd : as.find? (isDel t) with
      | none =>
        simp only [hd] at hfind
        cases hfind
        exact ⟨as, bs, hps, hpreAs'⟩
      | some d =>
        simp only [hd] at hfind
        cases hfind
        obtain ⟨-, as1, as2, hAs, -⟩ := List.find?_eq_some.mp hd
        refine ⟨as1, as2 ++ e :: bs, ?_, ?_⟩
        · rw [hps, hAs]
          simp
        · intro x hx
          exact hpreAs' x (by rw [hAs]; exact List.mem_append.mpr (Or.inl hx))
    · rw [if_neg (by simp [hE])] at hfind
      cases hfind
      exfalso
      apply hocc
      unfold isHit at hhite
      cases hst : get_state t i with
      | EMPTY => exact absurd hst hE
      | OCCUPIED => rfl
      | DELETED => rw [hst] at hhite; cases hhite

/-- Decomposition of an insert-mode probe that lands on an occupied slot:
the slot's key matched, and no terminator precedes it. -/
theorem find_insert_decomp_occ {t : HashTable K V} {k : K} {i : Nat}
    (hfind : find_entry_index t k true = some i)
    (hocc : get_state t i = SlotState.OCCUPIED) :
    ∃ pre suf, positions t (hashIndex t k) = pre ++ i :: suf ∧
      (∀ x ∈ pre, isHit t k x = false) ∧ keyMatch t k i = true := by
  rw [find_entry_index_eq_find_slot_spec] at hfind
  unfold find_slot_spec at hfind
  cases hf : (positions t (hashIndex t k)).find? (isHit t k) with
  | none => simp only [hf] at hfind; cases hfind
  | some e =>
    simp only [hf] at hfind
    obtain ⟨hhite, as, bs, hps, hpreAs⟩ := List.find?_eq_some.mp hf
    have hpreAs' : ∀ x ∈ as, isHit t k x = false := by
      intro x hx
      simpa using hpreAs x hx
    by_cases hE : get_state t e = SlotState.EMPTY
    · rw [if_pos ⟨trivial, hE⟩] at hfind
      have htake : (positions t (hashIndex t k)).takeWhile (fun p => !isHit t k p) = as := by
        rw [hps, List.takeWhile_append_of_pos (fun x hx => by simp [hpreAs' x hx]),
          List.takeWhile_cons_of_neg (by simp [hhite])]
        simp
      rw [htake] at hfind
      cases hd : as.find? (isDel t) with
      | none =>
        simp only [hd] at hfind
        cases hfind
        rw [hE] at hocc
        cases hocc
      | some d =>
        simp only [hd] at hfind
        cases hfind
        have hdel := List.find?_some hd
        unfold isDel at hdel
        rw [hocc] at hdel
        cases hdel
    · rw [if_neg (by simp [hE])] at hfind
      cases hfind
      refine ⟨as, bs, hps, hpreAs', ?_⟩
      unfold isHit at hhite
      rw [hocc] at hhite
      exact hhite

theorem occCount_pos {t : HashTable K V} {i : Nat} (hlen : i < t.states.length)
    (hocc : get_state t i = SlotState.OCCUPIED) : 1 ≤ occCount t := by
  unfold occCount
  refine List.countP_pos_iff.mpr ⟨t.states.getD i SlotState.EMPTY, getD_mem_of_lt _ _ _ hlen, ?_⟩
  unfold get_state at hocc
  rw [hocc]
  simp

/-- Reduce a successful `hash_table_insert` to a successful `insertEntry` on
the table as it stands after the (possible) resize, which is well-formed and
keeps the handlers. -/
theorem hash_table_insert_to_insertEntry {t t' : HashTable K V}
    {k : K} {v : V} {fuel : Nat} {a1 a2 : Bool}
    (hw : WFc t) (hload : 4 * t.count ≤ 3 * t.capacity)
    (h : hash_table_insert fuel t k v a1 a2 = some (t', true)) :
    ∃ t1, WFc t1 ∧ t1.key_handler = t.key_handler ∧ t1.value_handler = t.value_handler ∧
      insertEntry t1 k v = some (t', true) := by
  by_cases hl : 4 * (t.count + 1) > 3 * t.capacity
  · cases fuel with
    | zero => rw [hash_table_insert, if_pos hl] at h; cases h
    | succ fuel =>
      rw [hash_table_insert, if_pos hl] at h
      cases hr : resizeWith (fun x k' v' => hash_table_insert fuel x k' v' a1 a2)
          t (2 * t.capacity) a1 a2 with
      | none => rw [hr] at h; cases h
      | some o =>
        cases o with
        | none => rw [hr] at h; cases h
        | some t1 =>
          rw [hr] at h
          obtain ⟨hw1, -, -, hkh1, hvh1⟩ := resizeWith_success fuel hw hload hr
          exact ⟨t1, hw1, hkh1, hvh1, h⟩
  · rw [hash_table_insert_of_low_load fuel a1 a2 hl] at h
    exact ⟨t, hw, rfl, rfl, h⟩

/-- **C4**.  On a well-formed table (within the load bound) whose behavior
set is honest — `equal` is equality, the clones succeed and produce equal
copies — a successful `insert(k, v)` followed immediately by `lookup(k)`
returns exactly the value `v`. -/
theorem C4_insert_then_lookup_returns_value [DecidableEq K]
    {t t' : HashTable K V} {k : K} {v : V} {fuel : Nat} {a1 a2 : Bool}
    (hw : WFc t) (hload : 4 * t.count ≤ 3 * t.capacity)
    (heq : ∀ a b, t.key_handler.equal a b = decide (a = b))
    (hck : ∀ x, t.key_handler.copy x = some x)
    (hcv : ∀ x, t.value_handler.copy x = some x)
    (h : hash_table_insert fuel t k v a1 a2 = some (t', true)) :
    hash_table_lookup t' k = some (some v) := by
  obtain ⟨t1, hw1, hkh1, hvh1, hIE⟩ := hash_table_insert_to_insertEntry hw hload h
  have heq1 : ∀ a b, t1.key_handler.equal a b = decide (a = b) := by
    rw [hkh1]; exact heq
  have hck1 : ∀ x, t1.key_handler.copy x = some x := by
    rw [hkh1]; exact hck
  have hcv1 : ∀ x, t1.value_handler.copy x = some x := by
    rw [hvh1]; exact hcv
  obtain ⟨hw1a, hw1b, hw1c⟩ := hw1
  obtain ⟨-, i, hfind, hi, hcase⟩ := insertEntry_cases hIE
  have hislen : i < t1.states.length := hw1a ▸ hi
  have hielen : i < t1.entries.length := hw1b ▸ hi
  rcases hcase with ⟨hocc, ht'⟩ | ⟨hocc, ht'⟩
  · -- new entry written at i (slot was Empty or Deleted)
    obtain ⟨pre, suf, hps, hpre⟩ := find_insert_decomp hfind hocc
    have hinotpre : i ∉ pre := not_mem_pre_of_nodup (hps ▸ nodup_positions t1 _)
    have hcap' : t'.capacity = t1.capacity := by subst ht'; rfl
    have hkh' : t'.key_handler = t1.key_handler := by subst ht'; rfl
    have hvh' : t'.value_handler = t1.value_handler := by subst ht'; rfl
    have hstates' : t'.states = t1.states.set i SlotState.OCCUPIED := by subst ht'; rfl
    have hentries' : t'.entries = t1.entries.set i
        (t1.key_handler.copy k, t1.value_handler.copy v) := by subst ht'; rfl
    have hcount' : t'.count = t1.count + 1 := by subst ht'; rfl
    have hps' : positions t' (hashIndex t' k) = pre ++ i :: suf := by
      rw [hashIndex_congr hkh' hcap', positions_congr hcap']
      exact hps
    have hstate_i : get_state t' i = SlotState.OCCUPIED := by
      unfold get_state
      rw [hstates', getD_set_self _ _ _ _ hislen]
    have hkm_i : keyMatch t' k i = true := by
      unfold keyMatch entryAt
      rw [hentries', getD_set_self _ _ _ _ hielen]
      simp [hck1, hkh', heq1]
    have hhit_i : isHit t' k i = true := by
      unfold isHit
      rw [hstate_i, hkm_i]
    have hpre' : ∀ x ∈ pre, isHit t' k x = false := by
      intro x hx
      have hxi : i ≠ x := fun hc => hinotpre (hc ▸ hx)
      have h1 : get_state t' x = get_state t1 x := by
        unfold get_state
        rw [hstates', getD_set_ne _ _ _ _ _ hxi]
      have h2 : keyMatch t' k x = keyMatch t1 k x := by
        unfold keyMatch entryAt
        rw [hentries', getD_set_ne _ _ _ _ _ hxi, hkh']
      rw [isHit_congr_at h1 h2]
      exact hpre x hx
    obtain ⟨hfind', -⟩ := find_at_first_hit hps' hpre' hhit_i (by rw [hstate_i]; simp)
    unfold hash_table_lookup
    rw [if_neg (by rw [hcount']; exact Nat.succ_ne_zero _)]
    simp only [hfind']
    rw [if_pos hstate_i]
    unfold entryAt
    rw [hentries', getD_set_self _ _ _ _ hielen]
    simp [hcv1]
  · -- update in place at the occupied slot holding k
    obtain ⟨pre, suf, hps, hpre, hkm⟩ := find_insert_decomp_occ hfind hocc
    have hinotpre : i ∉ pre := not_mem_pre_of_nodup (hps ▸ nodup_positions t1 _)
    have hcap' : t'.capacity = t1.capacity := by subst ht'; rfl
    have hkh' : t'.key_handler = t1.key_handler := by subst ht'; rfl
    have hvh' : t'.value_handler = t1.value_handler := by subst ht'; rfl
    have hstates' : t'.states = t1.states := by subst ht'; rfl
    have hentries' : t'.entries = t1.entries.set i
        ((entryAt t1 i).1, t1.value_handler.copy v) := by subst ht'; rfl
    have hcount' : t'.count = t1.count := by subst ht'; rfl
    have hps' : positions t' (hashIndex t' k) = pre ++ i :: suf := by
      rw [hashIndex_congr hkh' hcap', positions_congr hcap']
      exact hps
    have hstate_i : get_state t' i = SlotState.OCCUPIED := by
      unfold get_state
      rw [hstates']
      exact hocc
    have hkm_i : keyMatch t' k i = true := by
      unfold keyMatch entryAt
      rw [hentries', getD_set_self _ _ _ _ hielen, hkh']
      unfold keyMatch at hkm
      exact hkm
    have hhit_i : isHit t' k i = true := by
      unfold isHit
      rw [hstate_i, hkm_i]
    have hpre' : ∀ x ∈ pre, isHit t' k x = false := by
      intro x hx
      have hxi : i ≠ x := fun hc => hinotpre (hc ▸ hx)
      have h1 : get_state t' x = get_state t1 x := by
        unfold get_state
        rw [hstates']
      have h2 : keyMatch t' k x = keyMatch t1 k x := by
        unfold keyMatch entryAt
        rw [hentries', getD_set_ne _ _ _ _ _ hxi, hkh']
      rw [isHit_congr_at h1 h2]
      exact hpre x hx
    obtain ⟨hfind', -⟩ := find_at_first_hit hps' hpre' hhit_i (by rw [hstate_i]; simp)
    unfold hash_table_lookup
    have hc1 : 1 ≤ t1.count := hw1c ▸ occCount_pos hislen hocc
    rw [if_neg (by omega)]
    simp only [hfind']
    rw [if_pos hstate_i]
    unfold entryAt
    rw [hentries', getD_set_self _ _ _ _ hielen]
    simp [hcv1]

/-- The table produced by inserting `(3, 7)` into the fresh table. -/
def table0i : HashTable Nat Nat :=
  ((hash_table_insert 1 table0 3 7 true true).getD (table0, false)).1

/-- **C4** witness: insert `(3, 7)` into the fresh table, then look `3` up. -/
theorem C4_witness : hash_table_lookup table0i 3 = some (some 7) :=
  C4_insert_then_lookup_returns_value ⟨rfl, rfl, rfl⟩ (by decide)
    (fun a b => rfl) (fun x => rfl) (fun x => rfl)
    (rfl : hash_table_insert 1 table0 3 7 true true = some (table0i, true))

/-- In lookup mode the probe simply returns the first terminator. -/
theorem find_lookup_eq_find? (t : HashTable K V) (k : K) :
    find_entry_index t k false =
      (positions t (hashIndex t k)).find? (isHit t k) := by
  rw [find_entry_index_eq_find_slot_spec]
  unfold find_slot_spec
  cases hf : (positions t (hashIndex t k)).find? (isHit t k) <;> simp [hf]

theorem isHit_of_find_lookup {t : HashTable K V} {k : K} {i : Nat}
    (h : find_entry_index t k false = some i) : isHit t k i = true := by
  rw [find_lookup_eq_find?] at h
  exact List.find?_some h

theorem keyMatch_of_find_lookup {t : HashTable K V} {k : K} {i : Nat}
    (h : find_entry_index t k false = some i)
    (hocc : get_state t i = SlotState.OCCUPIED) : keyMatch t k i = true := by
  have := isHit_of_find_lookup h
  unfold isHit at this
  rwa [hocc] at this

/-- If the first terminator is an occupied match, insert mode returns it too. -/
theorem find_insert_eq_of_occ {t : HashTable K V} {k : K} {i : Nat}
    (h : find_entry_index t k false = some i)
    (hocc : get_state t i = SlotState.OCCUPIED) :
    find_entry_index t k true = some i := by
  rw [find_lookup_eq_find?] at h
  rw [find_entry_index_eq_find_slot_spec]
  unfold find_slot_spec
  simp [h, hocc]

/-- A list of slot states with no `EMPTY` entry is as long as its occupied
and deleted counts combined. -/
theorem length_le_occ_add_del (l : List SlotState)
    (h : ∀ s ∈ l, s = SlotState.OCCUPIED ∨ s = SlotState.DELETED) :
    l.length ≤ l.countP (fun s => decide (s = SlotState.OCCUPIED)) +
      l.countP (fun s => decide (s = SlotState.DELETED)) := by
  induction l with
  | nil => simp
  | cons s rest ih =>
    have hs := h s (List.mem_cons_self s rest)
    have hrest := ih (fun x hx => h x (List.mem_cons_of_mem _ hx))
    rcases hs with hs | hs <;> subst hs <;>
      simp only [List.length_cons, List.countP_cons] <;> simp <;> omega

/-- A slot array with fewer occupied-plus-deleted slots than its length has an
`Empty` slot. -/
theorem exists_empty_slot {t : HashTable K V}
    (h : occCount t + delCount t < t.states.length) :
    ∃ e, e < t.states.length ∧ get_state t e = SlotState.EMPTY := by
  by_contra hno
  push_neg at hno
  have hall : ∀ s ∈ t.states, s = SlotState.OCCUPIED ∨ s = SlotState.DELETED := by
    intro s hs
    obtain ⟨e, he, hse⟩ := List.getElem_of_mem hs
    have hgs : get_state t e = s := by
      unfold get_state
      rw [List.getD_eq_getElem?_getD, List.getElem?_eq_getElem he, hse]
      rfl
    cases s with
    | EMPTY => exact absurd hgs (hno e he)
    | OCCUPIED => exact Or.inl rfl
    | DELETED => exact Or.inr rfl
  have := length_le_occ_add_del t.states hall
  unfold occCount delCount at h
  omega

/-- A probe for any key terminates as soon as one `Empty` slot exists. -/
theorem find_isSome_of_empty {t : HashTable K V} {k : K} {e : Nat}
    (helen : e < t.capacity) (he : get_state t e = SlotState.EMPTY) (ins : Bool) :
    (find_entry_index t k ins).isSome := by
  have hin : e ∈ positions t (hashIndex t k) := mem_positions t _ helen
  have hhit : isHit t k e = true := by
    unfold isHit
    rw [he]
  have : ((positions t (hashIndex t k)).find? (isHit t k)).isSome :=
    List.find?_isSome.mpr ⟨e, hin, hhit⟩
  rw [find_entry_index_eq_find_slot_spec]
  unfold find_slot_spec
  cases hf : (positions t (hashIndex t k)).find? (isHit t k) with
  | none => rw [hf] at this; cases this
  | some i =>
    simp only [hf]
    split
    · cases ((positions t (hashIndex t k)).takeWhile
        (fun p => !isHit t k p)).find? (isDel t) <;> rfl
    · rfl

/-- Out-of-range slots read as `EMPTY` (`getD` default); in particular an
occupied slot index is always in range. -/
theorem lt_capacity_of_occupied {t : HashTable K V} {j : Nat}
    (hw1 : t.states.length = t.capacity)
    (hj : get_state t j = SlotState.OCCUPIED) : j < t.capacity := by
  by_contra hge
  push_neg at hge
  have : get_state t j = SlotState.EMPTY := by
    unfold get_state
    rw [List.getD_eq_getElem?_getD, List.getElem?_eq_none (by omega : t.states.length ≤ j)]
    rfl
  rw [this] at hj
  cases hj

/-- **C7** (amended: the table must still have at least one `Empty` slot, so
that the lookup's probe terminates — see `C7_counterexample` for why this
hypothesis is necessary).  On a well-formed table in which at most one
occupied slot matches `k` (key uniqueness, part of the representation
invariant), a `delete(k)` that returns true makes an immediately following
`lookup(k)` return not-found (`NULL`). -/
theorem C7_delete_then_lookup_not_found {t t' : HashTable K V} {k : K}
    (hw : WFc t)
    (hempty : ∃ e, e < t.capacity ∧ get_state t e = SlotState.EMPTY)
    (huniq : ∀ i j, i < t.capacity → j < t.capacity →
        get_state t i = SlotState.OCCUPIED → get_state t j = SlotState.OCCUPIED →
        keyMatch t k i = true → keyMatch t k j = true → i = j)
    (hd : hash_table_delete t k = some (t', true)) :
    hash_table_lookup t' k = some none := by
  rcases hash_table_delete_cases hd with ⟨hb, -, -⟩ | ⟨-, h0, i, hfind, hocc, ht'⟩
  · cases hb
  · obtain ⟨hw1, hw2, hw3⟩ := hw
    have hi : i < t.capacity := find_entry_index_lt hfind
    have hkm : keyMatch t k i = true := keyMatch_of_find_lookup hfind hocc
    have hcap' : t'.capacity = t.capacity := by subst ht'; rfl
    have hkh' : t'.key_handler = t.key_handler := by subst ht'; rfl
    have hstates' : t'.states = t.states.set i SlotState.DELETED := by subst ht'; rfl
    have hentries' : t'.entries = t.entries.set i (none, none) := by subst ht'; rfl
    have hislen : i < t.states.length := hw1 ▸ hi
    have hnomatch : ∀ j, ¬ (get_state t' j = SlotState.OCCUPIED ∧ keyMatch t' k j = true) := by
      rintro j ⟨hj1, hj2⟩
      by_cases hji : j = i
      · subst hji
        unfold get_state at hj1
        rw [hstates', getD_set_self _ _ _ _ hislen] at hj1
        cases hj1
      · have hjs : get_state t' j = get_state t j := by
          unfold get_state
          rw [hstates', getD_set_ne _ _ _ _ _ (fun hc => hji hc.symm)]
        have hjm : keyMatch t' k j = keyMatch t k j := by
          unfold keyMatch entryAt
          rw [hentries', getD_set_ne _ _ _ _ _ (fun hc => hji hc.symm), hkh']
        rw [hjs] at hj1
        rw [hjm] at hj2
        exact hji (huniq j i (lt_capacity_of_occupied hw1 hj1) hi hj1 hocc hj2 hkm)
    obtain ⟨e, helt, hee⟩ := hempty
    have hei : e ≠ i := fun hc => by rw [hc, hocc] at hee; cases hee
    have hee' : get_state t' e = SlotState.EMPTY := by
      unfold get_state
      rw [hstates', getD_set_ne _ _ _ _ _ (fun hc => hei hc.symm)]
      exact hee
    by_cases hc0 : t'.count = 0
    · unfold hash_table_lookup
      rw [if_pos hc0]
    · have hsome := find_isSome_of_empty (t := t') (k := k) (hcap' ▸ helt) hee' false
      cases hfind' : find_entry_index t' k false with
      | none => rw [hfind'] at hsome; cases hsome
      | some j =>
        have hjstate : get_state t' j ≠ SlotState.OCCUPIED := by
          intro hjo
          exact hnomatch j ⟨hjo, keyMatch_of_find_lookup hfind' hjo⟩
        unfold hash_table_lookup
        rw [if_neg hc0]
        simp only [hfind']
        rw [if_neg hjstate]

/-- The table obtained from `tStar` by deleting key 4. -/
def tStarD : HashTable Nat Nat := ((hash_table_delete tStar 4).getD (tStar, false)).1

/-- **C7** counterexample to the claim as stated.  In the reachable
tombstone-saturated table `tStar`, deleting key 4 succeeds (returns true),
but the immediately following `lookup(4)` does not return not-found — it
never returns at all (`none` = the probe loop cycles forever, there being no
`Empty` slot left to terminate it). -/
theorem C7_counterexample :
    Reachable natHandler natHandler tStar ∧
    hash_table_delete tStar 4 = some (tStarD, true) ∧
    hash_table_lookup tStarD 4 = none :=
  ⟨tStar_reachable, rfl, rfl⟩

/-- **C7** witness for the amended theorem: delete key 3 from the table that
holds `(3, 7)`, then look it up; the lookup reports not-found. -/
theorem C7_witness :
    hash_table_lookup (((hash_table_delete table0i 3).getD (table0i, false)).1) 3 =
      some none := by
  have huniq0 : ∀ i, i < (16 : Nat) → ∀ j, j < (16 : Nat) →
      ¬ (get_state table0i i = SlotState.OCCUPIED ∧
         get_state table0i j = SlotState.OCCUPIED ∧
         keyMatch table0i 3 i = true ∧ keyMatch table0i 3 j = true ∧ i ≠ j) := by decide
  refine C7_delete_then_lookup_not_found ⟨rfl, rfl, rfl⟩
    ⟨0, by decide, by decide⟩ ?_
    (rfl : hash_table_delete table0i 3 =
      some ((((hash_table_delete table0i 3).getD (table0i, false)).1), true))
  intro i j hi hj hoi hoj hmi hmj
  by_contra hne
  exact huniq0 i hi j hj ⟨hoi, hoj, hmi, hmj, hne⟩

/-- **C6** (amended: the not-found clause additionally needs at least one
`Empty` slot, so that the probe terminates — see `C6_counterexample`).
Conjuncts: (1) on an empty table, delete returns false and changes nothing;
(2) if the probe finds `k` in an occupied slot `i` (on a well-formed table
this is exactly "k occupies slot i", by the findability of stored keys),
delete destroys that slot's key and value (both pointers are nulled), marks
it `Deleted`, decrements `count` and returns true — and the slot did match
`k`; (3) if no occupied slot matches `k` and an `Empty` slot exists, delete
returns false and the table is unchanged. -/
theorem C6_delete_found_and_not_found :
    (∀ (t : HashTable K V) (k : K), t.count = 0 →
        hash_table_delete t k = some (t, false)) ∧
    (∀ (t : HashTable K V) (k : K) (i : Nat), WFc t →
        find_entry_index t k false = some i → get_state t i = SlotState.OCCUPIED →
        hash_table_delete t k =
          some ({ set_state t i SlotState.DELETED with
                    entries := t.entries.set i (none, none),
                    count := t.count - 1 }, true) ∧
          keyMatch t k i = true ∧ 1 ≤ t.count) ∧
    (∀ (t : HashTable K V) (k : K),
        (∀ j, ¬ (get_state t j = SlotState.OCCUPIED ∧ keyMatch t k j = true)) →
        (∃ e, e < t.capacity ∧ get_state t e = SlotState.EMPTY) →
        hash_table_delete t k = some (t, false)) := by
  refine ⟨?_, ?_, ?_⟩
  · intro t k h0
    unfold hash_table_delete
    rw [if_pos h0]
  · intro t k i hw hfind hocc
    obtain ⟨hw1, hw2, hw3⟩ := hw
    have hi : i < t.capacity := find_entry_index_lt hfind
    have hc1 : 1 ≤ t.count := hw3 ▸ occCount_pos (hw1 ▸ hi) hocc
    refine ⟨?_, keyMatch_of_find_lookup hfind hocc, hc1⟩
    unfold hash_table_delete
    rw [if_neg (by omega)]
    simp only [hfind]
    rw [if_neg (not_not_intro hocc)]
  · intro t k hnm hempty
    by_cases h0 : t.count = 0
    · unfold hash_table_delete
      rw [if_pos h0]
    · obtain ⟨e, helt, he⟩ := hempty
      have hsome := find_isSome_of_empty helt he false (k := k)
      cases hfind : find_entry_index t k false with
      | none => rw [hfind] at hsome; cases hsome
      | some j =>
        have hjstate : get_state t j ≠ SlotState.OCCUPIED := by
          intro hjo
          exact hnm j ⟨hjo, keyMatch_of_find_lookup hfind hjo⟩
        unfold hash_table_delete
        rw [if_neg h0]
        simp only [hfind]
        rw [if_pos hjstate]

/-- **C6** counterexample to the claim as stated.  In the reachable table
`tStar` the key 16 is not present (no occupied slot matches it) and
`count ≠ 0`, so the claim requires `delete(16)` to return false with the
table unchanged — but the call never returns (`none`): with every slot
`Occupied` or `Deleted` the probe loop cycles forever. -/
theorem C6_counterexample :
    Reachable natHandler natHandler tStar ∧
    tStar.count ≠ 0 ∧
    (∀ j, j < tStar.capacity →
      ¬ (get_state tStar j = SlotState.OCCUPIED ∧ keyMatch tStar 16 j = true)) ∧
    hash_table_delete tStar 16 = none :=
  ⟨tStar_reachable, by decide, by decide, rfl⟩

/-- **C6** witness: on the table holding `(3, 7)`, deleting the present key 3
takes the found branch, and deleting the absent key 9 returns false with the
table unchanged. -/
theorem C6_witness :
    (hash_table_delete table0i 3 =
      some ({ set_state table0i 3 SlotState.DELETED with
                entries := table0i.entries.set 3 (none, none),
                count := table0i.count - 1 }, true) ∧
      keyMatch table0i 3 3 = true ∧ 1 ≤ table0i.count) ∧
    hash_table_delete table0i 9 = some (table0i, false) := by
  have hbnd : ∀ j, j < (16 : Nat) →
      ¬ (get_state table0i j = SlotState.OCCUPIED ∧ keyMatch table0i 9 j = true) := by
    decide
  exact ⟨C6_delete_found_and_not_found.2.1 table0i 3 3 ⟨rfl, rfl, rfl⟩ rfl (by decide),
    C6_delete_found_and_not_found.2.2 table0i 9
      (fun j hcontra => hbnd j (lt_capacity_of_occupied rfl hcontra.1) hcontra)
      ⟨0, by decide, by decide⟩⟩

/-! ## Re-hash content preservation (towards C5) -/

/-- The table produced by the fresh-slot branch of `hash_table_insert`
(lines 218-223): mark slot `i` occupied, clone key and value in, bump
`count`. -/
def writeNew (u : HashTable K V) (i : Nat) (k : K) (v : V) : HashTable K V :=
  { set_state u i SlotState.OCCUPIED with
      entries := u.entries.set i (u.key_handler.copy k, u.value_handler.copy v),
      count := u.count + 1 }

theorem insertEntry_new {t : HashTable K V} {k : K} {v : V} {i : Nat}
    (hfind : find_entry_index t k true = some i)
    (hocc : get_state t i ≠ SlotState.OCCUPIED) :
    insertEntry t k v = some (writeNew t i k v, true) := by
  unfold insertEntry
  simp only [hfind]
  rw [if_pos hocc]
  rfl

/-- Key `k'` is stored in an occupied slot. -/
def Contains (u : HashTable K V) (k' : K) : Prop :=
  ∃ j, j < u.capacity ∧ get_state u j = SlotState.OCCUPIED ∧ (entryAt u j).1 = some k'

/-- Key `k'` is stored and the lookup probe finds its slot. -/
def Found (u : HashTable K V) (k' : K) : Prop :=
  ∃ s, find_entry_index u k' false = some s ∧ get_state u s = SlotState.OCCUPIED ∧
    (entryAt u s).1 = some k'

theorem Found.contains {u : HashTable K V} {k' : K} (h : Found u k') : Contains u k' :=
  let ⟨s, hf, ho, hk⟩ := h
  ⟨s, find_entry_index_lt hf, ho, hk⟩

theorem contains_of_find_insert_occ [DecidableEq K] {u : HashTable K V} {k0 : K} {i : Nat}
    (heq : ∀ a b, u.key_handler.equal a b = decide (a = b))
    (hfind : find_entry_index u k0 true = some i)
    (hocc : get_state u i = SlotState.OCCUPIED) : Contains u k0 := by
  obtain ⟨-, -, -, -, hkm⟩ := find_insert_decomp_occ hfind hocc
  unfold keyMatch at hkm
  cases hk : (entryAt u i).1 with
  | none => rw [hk] at hkm; cases hkm
  | some k'' =>
    simp only [hk] at hkm
    rw [heq] at hkm
    have : k'' = k0 := by simpa using hkm
    exact ⟨i, find_entry_index_lt hfind, hocc, this ▸ hk⟩

theorem writeNew_capacity (u : HashTable K V) (i : Nat) (k : K) (v : V) :
    (writeNew u i k v).capacity = u.capacity := rfl

theorem writeNew_key_handler (u : HashTable K V) (i : Nat) (k : K) (v : V) :
    (writeNew u i k v).key_handler = u.key_handler := rfl

theorem writeNew_get_state_self {u : HashTable K V} {i : Nat} (k : K) (v : V)
    (h : i < u.states.length) :
    get_state (writeNew u i k v) i = SlotState.OCCUPIED := by
  unfold get_state writeNew set_state
  exact getD_set_self _ _ _ _ h

theorem writeNew_get_state_ne {u : HashTable K V} {i j : Nat} (k : K) (v : V)
    (h : i ≠ j) : get_state (writeNew u i k v) j = get_state u j := by
  unfold get_state writeNew set_state
  exact getD_set_ne _ _ _ _ _ h

theorem writeNew_entryAt_self {u : HashTable K V} {i : Nat} (k : K) (v : V)
    (h : i < u.entries.length) :
    entryAt (writeNew u i k v) i = (u.key_handler.copy k, u.value_handler.copy v) := by
  unfold entryAt writeNew
  exact getD_set_self _ _ _ _ h

theorem writeNew_entryAt_ne {u : HashTable K V} {i j : Nat} (k : K) (v : V)
    (h : i ≠ j) : entryAt (writeNew u i k v) j = entryAt u j := by
  unfold entryAt writeNew
  exact getD_set_ne _ _ _ _ _ h

/-- A fresh-slot write for a new key `k0` does not disturb the probe of any
other key `k'`: every slot the `k'`-probe passed is still passed (the written
slot, if on that path, was a tombstone and is now occupied by the non-equal
`k0`), and the slot it found is unchanged. -/
theorem found_preserved_after_write [DecidableEq K]
    {u : HashTable K V} {k0 : K} {v0 : V} {i0 : Nat} {k' : K} {s : Nat}
    (hw : WFc u)
    (heq : ∀ a b, u.key_handler.equal a b = decide (a = b))
    (hck0 : u.key_handler.copy k0 = some k0)
    (hfind0 : find_entry_index u k0 true = some i0)
    (hocc0 : get_state u i0 ≠ SlotState.OCCUPIED)
    (hne : k' ≠ k0)
    (hfound : find_entry_index u k' false = some s)
    (hsocc : get_state u s = SlotState.OCCUPIED) :
    find_entry_index (writeNew u i0 k0 v0) k' false = some s := by
  obtain ⟨hw1, hw2, hw3⟩ := hw
  have hi0 : i0 < u.capacity := find_entry_index_lt hfind0
  have hi0e : i0 < u.entries.length := hw2 ▸ hi0
  have hsne : s ≠ i0 := by
    intro hc
    rw [hc] at hsocc
    exact hocc0 hsocc
  rw [find_lookup_eq_find?] at hfound
  obtain ⟨hsHit, pre, suf, hps, hpreAll⟩ := List.find?_eq_some.mp hfound
  have hcap' : (writeNew u i0 k0 v0).capacity = u.capacity := rfl
  have hkh' : (writeNew u i0 k0 v0).key_handler = u.key_handler := rfl
  have hpre' : ∀ x ∈ pre, ¬ isHit (writeNew u i0 k0 v0) k' x = true := by
    intro x hx
    by_cases hxi : x = i0
    · subst hxi
      have hstate : get_state (writeNew u x k0 v0) x = SlotState.OCCUPIED :=
        writeNew_get_state_self k0 v0 (hw1 ▸ hi0)
      have hkm : keyMatch (writeNew u x k0 v0) k' x = false := by
        unfold keyMatch
        rw [writeNew_entryAt_self k0 v0 hi0e]
        simp only [hck0, writeNew_key_handler, heq]
        simp only [decide_eq_false_iff_not]
        exact fun hc => hne hc.symm
      simp [isHit, hstate, hkm]
    · have hx0 := hpreAll x hx
      have hh : isHit (writeNew u i0 k0 v0) k' x = isHit u k' x :=
        isHit_congr_at (writeNew_get_state_ne k0 v0 (fun hc => hxi hc.symm))
          (by unfold keyMatch
              rw [writeNew_entryAt_ne k0 v0 (fun hc => hxi hc.symm), hkh'])
      rw [hh]
      simpa using hx0
  have hs' : isHit (writeNew u i0 k0 v0) k' s = true := by
    have hh : isHit (writeNew u i0 k0 v0) k' s = isHit u k' s :=
      isHit_congr_at (writeNew_get_state_ne k0 v0 (fun hc => hsne hc.symm))
        (by unfold keyMatch
            rw [writeNew_entryAt_ne k0 v0 (fun hc => hsne hc.symm), hkh'])
    rw [hh]
    exact hsHit
  rw [find_lookup_eq_find?, hashIndex_congr hkh' hcap', positions_congr hcap', hps,
    List.find?_append, List.find?_eq_none.mpr hpre', List.find?_cons_of_pos _ hs',
    Option.none_or]

/-- The key just written by a fresh-slot insert is found by a subsequent
lookup probe: the slots before the written one on its probe path are
unchanged non-terminators, and the written slot now matches. -/
theorem found_new_write [DecidableEq K]
    {u : HashTable K V} {k0 : K} {v0 : V} {i0 : Nat}
    (hw : WFc u)
    (heq : ∀ a b, u.key_handler.equal a b = decide (a = b))
    (hck0 : u.key_handler.copy k0 = some k0)
    (hfind0 : find_entry_index u k0 true = some i0)
    (hocc0 : get_state u i0 ≠ SlotState.OCCUPIED) :
    find_entry_index (writeNew u i0 k0 v0) k0 false = some i0 ∧
    get_state (writeNew u i0 k0 v0) i0 = SlotState.OCCUPIED ∧
    (entryAt (writeNew u i0 k0 v0) i0).1 = some k0 := by
  obtain ⟨hw1, hw2, hw3⟩ := hw
  have hi0 : i0 < u.capacity := find_entry_index_lt hfind0
  obtain ⟨pre, suf, hps, hpre⟩ := find_insert_decomp hfind0 hocc0
  have hinotpre : i0 ∉ pre := not_mem_pre_of_nodup (hps ▸ nodup_positions u _)
  have hcap' : (writeNew u i0 k0 v0).capacity = u.capacity := rfl
  have hkh' : (writeNew u i0 k0 v0).key_handler = u.key_handler := rfl
  have hstate : get_state (writeNew u i0 k0 v0) i0 = SlotState.OCCUPIED :=
    writeNew_get_state_self k0 v0 (hw1 ▸ hi0)
  have hkey : (entryAt (writeNew u i0 k0 v0) i0).1 = some k0 := by
    rw [writeNew_entryAt_self k0 v0 (hw2 ▸ hi0)]
    exact hck0
  have hkm : keyMatch (writeNew u i0 k0 v0) k0 i0 = true := by
    unfold keyMatch
    simp only [hkey, hkh', heq]
    simp
  have hhit : isHit (writeNew u i0 k0 v0) k0 i0 = true := by
    unfold isHit
    rw [hstate, hkm]
  have hps' : positions (writeNew u i0 k0 v0) (hashIndex (writeNew u i0 k0 v0) k0) =
      pre ++ i0 :: suf := by
    rw [hashIndex_congr hkh' hcap', positions_congr hcap']
    exact hps
  have hpre' : ∀ x ∈ pre, isHit (writeNew u i0 k0 v0) k0 x = false := by
    intro x hx
    have hxi : i0 ≠ x := fun hc => hinotpre (hc ▸ hx)
    have hh : isHit (writeNew u i0 k0 v0) k0 x = isHit u k0 x :=
      isHit_congr_at (writeNew_get_state_ne k0 v0 hxi)
        (by unfold keyMatch
            rw [writeNew_entryAt_ne k0 v0 hxi, hkh'])
    rw [hh]
    exact hpre x hx
  obtain ⟨h1, -⟩ := find_at_first_hit hps' hpre' hhit (by rw [hstate]; simp)
  exact ⟨h1, hstate, hkey⟩

/-- A fresh-slot write adds precisely the new key to the stored-key set. -/
theorem contains_writeNew {u : HashTable K V} {k0 : K} {v0 : V} {i0 : Nat} {k' : K}
    (hck0 : u.key_handler.copy k0 = some k0)
    (hc : Contains (writeNew u i0 k0 v0) k') : k' = k0 ∨ Contains u k' := by
  obtain ⟨j, hj, ho, hk⟩ := hc
  rw [writeNew_capacity] at hj
  by_cases hji : j = i0
  · subst hji
    by_cases hjl : j < u.entries.length
    · rw [writeNew_entryAt_self k0 v0 hjl, hck0] at hk
      cases hk
      exact Or.inl rfl
    · exfalso
      unfold entryAt writeNew at hk
      rw [List.getD_eq_getElem?_getD, List.getElem?_eq_none] at hk
      · cases hk
      · simpa using hjl
  · rw [writeNew_get_state_ne k0 v0 (fun hc' => hji hc'.symm)] at ho
    rw [writeNew_entryAt_ne k0 v0 (fun hc' => hji hc'.symm)] at hk
    exact Or.inr ⟨j, hj, ho, hk⟩

/-- No slot of the written table is a tombstone if none was before. -/
theorem nodel_writeNew {u : HashTable K V} {k0 : K} {v0 : V} {i0 : Nat}
    (h : ∀ j, get_state u j ≠ SlotState.DELETED) :
    ∀ j, get_state (writeNew u i0 k0 v0) j ≠ SlotState.DELETED := by
  intro j
  by_cases hji : i0 = j
  · subst hji
    by_cases hl : i0 < u.states.length
    · rw [writeNew_get_state_self k0 v0 hl]
      simp
    · unfold get_state writeNew set_state
      rw [List.set_eq_of_length_le (by omega)]
      exact h i0
  · rw [writeNew_get_state_ne k0 v0 hji]
    exact h j

theorem delCount_zero_of_nodel {u : HashTable K V}
    (h : ∀ j, get_state u j ≠ SlotState.DELETED) : delCount u = 0 := by
  unfold delCount
  rw [List.countP_eq_zero]
  intro s hs
  obtain ⟨e, he, hse⟩ := List.getElem_of_mem hs
  have hgs : get_state u e = s := by
    unfold get_state
    rw [List.getD_eq_getElem?_getD, List.getElem?_eq_getElem he, hse]
    rfl
  have hne := h e
  rw [hgs] at hne
  simpa using hne

/-- The keys of the occupied items of the old slot array, in slot order. -/
def occKeys (L : List (SlotState × (Option K × Option V))) : List K :=
  L.filterMap (fun p => match p with
    | (SlotState.OCCUPIED, (some k, _)) => some k
    | _ => none)

/-- Master lemma for the rehash loop: starting from a tombstone-free table
that does not yet contain any of the (pairwise distinct) keys being
re-inserted, the loop terminates, never triggers a nested resize, inserts
each occupied item into a fresh slot (so `count` grows by exactly the number
of occupied items), keeps the table tombstone-free, preserves the findability
of every key already present, makes every re-inserted key findable, and adds
no other key. -/
theorem rehash_fold_master [DecidableEq K] (fuel : Nat) (a1 a2 : Bool) :
    ∀ (L : List (SlotState × (Option K × Option V))) (u : HashTable K V),
      WFc u →
      (∀ a b, u.key_handler.equal a b = decide (a = b)) →
      (∀ x, u.key_handler.copy x = some x) →
      (∀ j, get_state u j ≠ SlotState.DELETED) →
      4 * (u.count + occItems L) ≤ 3 * u.capacity →
      0 < u.capacity →
      (occKeys L).Nodup →
      (∀ p ∈ L, p.1 = SlotState.OCCUPIED → ∃ k'' v'', p.2 = (some k'', some v'')) →
      (∀ k', k' ∈ occKeys L → ¬ Contains u k') →
      ∃ u', rehashLoopWith (fun x k' v' => hash_table_insert fuel x k' v' a1 a2) u L =
          some u' ∧
        WFc u' ∧ u'.capacity = u.capacity ∧ u'.key_handler = u.key_handler ∧
        u'.value_handler = u.value_handler ∧
        u'.count = u.count + occItems L ∧
        (∀ j, get_state u' j ≠ SlotState.DELETED) ∧
        (∀ k', (Found u k' ∨ k' ∈ occKeys L) → Found u' k') ∧
        (∀ k', Contains u' k' → Contains u k' ∨ k' ∈ occKeys L) := by
  intro L
  induction L with
  | nil =>
    intro u hw heq hck hnodel hload hcap hnd hshape hdisj
    refine ⟨u, rfl, hw, rfl, rfl, rfl, by simp [occItems], hnodel, ?_, ?_⟩
    · rintro k' (hk | hk)
      · exact hk
      · simp [occKeys] at hk
    · exact fun k' hc => Or.inl hc
  | cons p rest ih =>
    intro u hw heq hck hnodel hload hcap hnd hshape hdisj
    obtain ⟨st, kv⟩ := p
    by_cases hst : st = SlotState.OCCUPIED
    · subst hst
      obtain ⟨k0, v0, hkv⟩ := hshape _ (List.mem_cons_self _ _) rfl
      subst hkv
      have hkeys : occKeys ((SlotState.OCCUPIED, (some k0, some v0)) :: rest) =
          k0 :: occKeys rest := rfl
      have hitems : occItems ((SlotState.OCCUPIED, ((some k0 : Option K),
          (some v0 : Option V))) :: rest) = occItems rest + 1 := by
        simp [occItems, List.countP_cons]
      rw [hitems] at hload
      rw [hkeys] at hnd hdisj
      have hk0new : ¬ Contains u k0 := hdisj k0 (List.mem_cons_self _ _)
      obtain ⟨hw1, hw2, hw3⟩ := hw
      -- the inner insert does not trigger a resize
      have hld : ¬ 4 * (u.count + 1) > 3 * u.capacity := by omega
      -- its probe terminates: an Empty slot exists
      have hcnt_lt : occCount u + delCount u < u.states.length := by
        rw [delCount_zero_of_nodel hnodel, hw1]
        omega
      obtain ⟨e, helen, hee⟩ := exists_empty_slot hcnt_lt
      have hfsome := find_isSome_of_empty (k := k0) (hw1 ▸ helen) hee true
      cases hfind0 : find_entry_index u k0 true with
      | none => rw [hfind0] at hfsome; cases hfsome
      | some i0 =>
        have hocc0 : get_state u i0 ≠ SlotState.OCCUPIED := by
          intro ho
          exact hk0new (contains_of_find_insert_occ heq hfind0 ho)
        have hi0 : i0 < u.capacity := find_entry_index_lt hfind0
        have hck0 : u.key_handler.copy k0 = some k0 := hck k0
        have hstep : hash_table_insert fuel u k0 v0 a1 a2 =
            some (writeNew u i0 k0 v0, true) := by
          rw [hash_table_insert_of_low_load fuel a1 a2 hld]
          exact insertEntry_new hfind0 hocc0
        -- invariants for the written table
        set u1 := writeNew u i0 k0 v0 with hu1
        have hw1' : WFc u1 ∧ u1.capacity = u.capacity ∧ u1.count ≤ u.count + 1 ∧
            u1.key_handler = u.key_handler ∧ u1.value_handler = u.value_handler :=
          insertEntry_WFc ⟨hw1, hw2, hw3⟩ (insertEntry_new hfind0 hocc0)
        have hcnt1 : u1.count = u.count + 1 := rfl
        have heq1 : ∀ a b, u1.key_handler.equal a b = decide (a = b) := heq
        have hck1 : ∀ x, u1.key_handler.copy x = some x := hck
        have hnodel1 : ∀ j, get_state u1 j ≠ SlotState.DELETED := nodel_writeNew hnodel
        have hdisj1 : ∀ k', k' ∈ occKeys rest → ¬ Contains u1 k' := by
          intro k' hk' hc
          rcases contains_writeNew hck0 hc with rfl | hc'
          · exact (List.nodup_cons.mp hnd).1 hk'
          · exact hdisj k' (List.mem_cons_of_mem _ hk') hc'
        obtain ⟨u', hloop, hwf', hcap', hkh', hvh', hcnt', hnodel', hfoundp', hcontp'⟩ :=
          ih u1 hw1'.1 heq1 hck1 hnodel1
            (by rw [hw1'.2.1, hcnt1]; omega)
            (by rw [hw1'.2.1]; exact hcap)
            (List.nodup_cons.mp hnd).2
            (fun q hq => hshape q (List.mem_cons_of_mem _ hq)) hdisj1
        refine ⟨u', ?_, hwf', by rw [hcap', hw1'.2.1], by rw [hkh', hw1'.2.2.2.1],
          by rw [hvh', hw1'.2.2.2.2], by rw [hcnt', hcnt1, hitems]; omega,
          hnodel', ?_, ?_⟩
        · simp only [rehashLoopWith, hstep]
          exact hloop
        · rintro k' (hf | hm)
          · obtain ⟨s, hfs, hso, hsk⟩ := hf
            have hne : k' ≠ k0 := by
              rintro rfl
              exact hk0new ⟨s, find_entry_index_lt hfs, hso, hsk⟩
            have hsne : s ≠ i0 := by
              intro hc
              rw [hc] at hso
              exact hocc0 hso
            refine hfoundp' k' (Or.inl ⟨s, ?_, ?_, ?_⟩)
            · exact found_preserved_after_write ⟨hw1, hw2, hw3⟩ heq hck0 hfind0
                hocc0 hne hfs hso
            · rw [hu1, writeNew_get_state_ne k0 v0 (fun hc => hsne hc.symm)]
              exact hso
            · rw [hu1, writeNew_entryAt_ne k0 v0 (fun hc => hsne hc.symm)]
              exact hsk
          · rcases List.mem_cons.mp hm with rfl | hm'
            · obtain ⟨hfn, hsn, hkn⟩ :=
                @found_new_write K V _ u k' v0 i0 ⟨hw1, hw2, hw3⟩ heq hck0 hfind0 hocc0
              exact hfoundp' k' (Or.inl ⟨i0, hfn, hsn, hkn⟩)
            · exact hfoundp' k' (Or.inr hm')
        · intro k' hc
          rcases hcontp' k' hc with hc1 | hm
          · rcases contains_writeNew hck0 hc1 with rfl | hc2
            · exact Or.inr (List.mem_cons_self _ _)
            · exact Or.inl hc2
          · exact Or.inr (List.mem_cons_of_mem _ hm)
    · have hitems : occItems ((st, kv) :: rest) = occItems rest := by
        simp [occItems, List.countP_cons, hst]
      have hkeys : occKeys ((st, kv) :: rest) = occKeys rest := by
        cases st with
        | OCCUPIED => exact absurd rfl hst
        | EMPTY => rfl
        | DELETED => rfl
      obtain ⟨u', hloop, hwf', hcap', hkh', hvh', hcnt', hnodel', hfoundp', hcontp'⟩ :=
        ih u hw heq hck hnodel (by rw [hitems] at hload; exact hload) hcap
          (by rw [hkeys] at hnd; exact hnd)
          (fun q hq => hshape q (List.mem_cons_of_mem _ hq))
          (fun k' hk' => hdisj k' (by rw [hkeys]; exact hk'))
      refine ⟨u', ?_, hwf', hcap', hkh', hvh', by rw [hcnt', hitems], hnodel', ?_, ?_⟩
      · cases st with
        | OCCUPIED => exact absurd rfl hst
        | EMPTY => simp only [rehashLoopWith]; exact hloop
        | DELETED => simp only [rehashLoopWith]; exact hloop
      · intro k' hk'
        rw [hkeys] at hk'
        exact hfoundp' k' hk'
      · intro k' hc
        rw [hkeys]
        exact hcontp' k' hc

theorem get_state_fresh (t : HashTable K V) (n j : Nat) :
    get_state (freshStorage t n) j = SlotState.EMPTY := by
  unfold get_state freshStorage
  rw [List.getD_eq_getElem?_getD, List.getElem?_replicate]
  split <;> rfl

theorem contains_mem_occKeys {t : HashTable K V} {k' : K}
    (hw1 : t.states.length = t.capacity) (hw2 : t.entries.length = t.capacity)
    (hc : Contains t k') : k' ∈ occKeys (t.states.zip t.entries) := by
  obtain ⟨j, hj, ho, hk⟩ := hc
  have hjs : j < t.states.length := hw1 ▸ hj
  have hje : j < t.entries.length := hw2 ▸ hj
  have hsj : t.states[j]? = some SlotState.OCCUPIED := by
    unfold get_state at ho
    rw [List.getD_eq_getElem?_getD, List.getElem?_eq_getElem hjs] at ho
    rw [List.getElem?_eq_getElem hjs]
    simpa using ho
  have hej : t.entries[j]? = some (entryAt t j) := by
    unfold entryAt
    rw [List.getD_eq_getElem?_getD, List.getElem?_eq_getElem hje]
    rfl
  have hz : (t.states.zip t.entries)[j]? = some (SlotState.OCCUPIED, entryAt t j) :=
    List.getElem?_zip_eq_some.mpr ⟨hsj, hej⟩
  have hmem : (SlotState.OCCUPIED, entryAt t j) ∈ t.states.zip t.entries :=
    List.getElem?_mem hz
  have hE : entryAt t j = (some k', (entryAt t j).2) := by rw [← hk]
  refine List.mem_filterMap.mpr ⟨(SlotState.OCCUPIED, entryAt t j), hmem, ?_⟩
  rw [hE]

/-- What a successful resize produces when the old table's occupied slots
hold pairwise distinct cloned keys: the doubled, tombstone-free table holds
exactly the same entries (`count` preserved), and every key stored in the
old table is findable in the new one. -/
theorem resize_preserves_contents [DecidableEq K] (fuel : Nat)
    {t t1 : HashTable K V} {a1 a2 : Bool}
    (hw : WFc t) (hload : 4 * t.count ≤ 3 * t.capacity) (hcap : 0 < t.capacity)
    (heq : ∀ a b, t.key_handler.equal a b = decide (a = b))
    (hck : ∀ x, t.key_handler.copy x = some x)
    (hnd : (occKeys (t.states.zip t.entries)).Nodup)
    (hshape : ∀ p ∈ t.states.zip t.entries, p.1 = SlotState.OCCUPIED →
        ∃ k'' v'', p.2 = (some k'', some v''))
    (hr : resizeWith (fun x k' v' => hash_table_insert fuel x k' v' a1 a2)
        t (2 * t.capacity) a1 a2 = some (some t1)) :
    t1.count = t.count ∧ t1.key_handler = t.key_handler ∧
      t1.value_handler = t.value_handler ∧
      (∀ k', Contains t k' → Found t1 k') := by
  obtain ⟨hw1, hw2, hw3⟩ := hw
  unfold resizeWith at hr
  by_cases h1 : a1 = false
  · rw [if_pos h1] at hr; cases hr
  rw [if_neg h1] at hr
  by_cases h2 : a2 = false
  · rw [if_pos h2] at hr; cases hr
  rw [if_neg h2] at hr
  have hocc : occItems (t.states.zip t.entries) = occCount t := by
    unfold occItems occCount
    exact countP_zip_fst (fun s => decide (s = SlotState.OCCUPIED))
      t.states t.entries (by rw [hw1, hw2])
  obtain ⟨u', hloop, hwf', hcap', hkh', hvh', hcnt', hnodel', hfoundp', hcontp'⟩ :=
    rehash_fold_master fuel a1 a2 (t.states.zip t.entries)
      (freshStorage t (2 * t.capacity)) (freshStorage_WFc t _)
      heq hck (fun j => by rw [get_state_fresh]; simp)
      (by show 4 * (0 + occItems _) ≤ 3 * (2 * t.capacity)
          rw [hocc]
          omega)
      (by show 0 < 2 * t.capacity; omega)
      hnd hshape
      (by rintro k' - ⟨j, -, hjo, -⟩
          rw [get_state_fresh] at hjo
          cases hjo)
  rw [hloop] at hr
  have ht1 : u' = t1 := by
    injection hr with h'
    injection h'
  subst ht1
  refine ⟨?_, hkh', hvh', fun k' hc => hfoundp' k'
    (Or.inr (contains_mem_occKeys hw1 hw2 hc))⟩
  rw [hcnt']
  show 0 + occItems _ = t.count
  rw [hocc, hw3]
  omega

/-- **C5**.  On a well-formed table (representation invariants: load bound,
honest behavior set, pairwise-distinct cloned stored keys, the probe finds
the stored key `k` at its occupied slot `i`), inserting `(k, v')`:
first conjunct — when no resize triggers (the generic case), the insert
rewrites slot `i` in place, destroying the old value and cloning `v'` in,
with the stored key left untouched (`(entryAt t i).1` is re-stored as is)
and `count`, `states` and everything else unchanged;
second conjunct — whatever the fuel and allocation outcomes, any returning
insert of the present key `k` leaves `count` unchanged, including when it
triggers a resize; in particular repeated inserts of the same key never
change `count`. -/
theorem C5_update_in_place_preserves_count [DecidableEq K]
    {t : HashTable K V} {k : K} {v' : V} {i : Nat}
    (hw : WFc t) (hload : 4 * t.count ≤ 3 * t.capacity) (hcap : 0 < t.capacity)
    (heq : ∀ a b, t.key_handler.equal a b = decide (a = b))
    (hck : ∀ x, t.key_handler.copy x = some x)
    (hnd : (occKeys (t.states.zip t.entries)).Nodup)
    (hshape : ∀ p ∈ t.states.zip t.entries, p.1 = SlotState.OCCUPIED →
        ∃ k'' v'', p.2 = (some k'', some v''))
    (hfound : find_entry_index t k false = some i)
    (hocc : get_state t i = SlotState.OCCUPIED) :
    (¬ 4 * (t.count + 1) > 3 * t.capacity →
      ∀ fuel a1 a2, hash_table_insert fuel t k v' a1 a2 =
        some ({ t with
                  entries := t.entries.set i ((entryAt t i).1, t.value_handler.copy v') },
          true)) ∧
    (∀ fuel a1 a2 (t' : HashTable K V) (b : Bool),
      hash_table_insert fuel t k v' a1 a2 = some (t', b) → t'.count = t.count) := by
  have hfi : find_entry_index t k true = some i := find_insert_eq_of_occ hfound hocc
  constructor
  · intro hld fuel a1 a2
    rw [hash_table_insert_of_low_load fuel a1 a2 hld]
    unfold insertEntry
    simp only [hfi]
    rw [if_neg (not_not_intro hocc)]
  · intro fuel a1 a2 t' b h
    by_cases hld : 4 * (t.count + 1) > 3 * t.capacity
    · cases fuel with
      | zero => rw [hash_table_insert, if_pos hld] at h; cases h
      | succ fuel =>
        rw [hash_table_insert, if_pos hld] at h
        cases hr : resizeWith (fun x k' v'' => hash_table_insert fuel x k' v'' a1 a2)
            t (2 * t.capacity) a1 a2 with
        | none => rw [hr] at h; cases h
        | some o =>
          cases o with
          | none =>
            rw [hr] at h
            cases h
            rfl
          | some t1 =>
            rw [hr] at h
            obtain ⟨hcnt1, hkh1, hvh1, hfound1⟩ :=
              resize_preserves_contents fuel hw hload hcap heq hck hnd hshape hr
            have hconk : Contains t k := by
              have hkm := keyMatch_of_find_lookup hfound hocc
              unfold keyMatch at hkm
              cases hkk : (entryAt t i).1 with
              | none => rw [hkk] at hkm; cases hkm
              | some k'' =>
                simp only [hkk] at hkm
                rw [heq] at hkm
                have hkeq : k'' = k := by simpa using hkm
                exact ⟨i, find_entry_index_lt hfound, hocc, hkeq ▸ hkk⟩
            obtain ⟨s, hfs, hso, hsk⟩ := hfound1 k hconk
            have hfi1 : find_entry_index t1 k true = some s := find_insert_eq_of_occ hfs hso
            unfold insertEntry at h
            simp only [hfi1] at h
            rw [if_neg (not_not_intro hso)] at h
            cases h
            exact hcnt1
    · rw [hash_table_insert_of_low_load fuel a1 a2 hld] at h
      unfold insertEntry at h
      simp only [hfi] at h
      rw [if_neg (not_not_intro hocc)] at h
      cases h
      rfl

/-- **C5** witness: the table holding `(3, 7)`; re-inserting key 3 with value
99 updates slot 3 in place and leaves `count` unchanged. -/
theorem C5_witness :
    hash_table_insert 1 table0i 3 99 true true =
      some ({ table0i with
                entries := table0i.entries.set 3
                  ((entryAt table0i 3).1, table0i.value_handler.copy 99) }, true) ∧
    (((hash_table_insert 1 table0i 3 99 true true).getD (table0i, false)).1).count =
      table0i.count := by
  have hshape0 : ∀ p ∈ table0i.states.zip table0i.entries,
      ¬ (p.1 = SlotState.OCCUPIED ∧
         ¬ (p.2.1.isSome = true ∧ p.2.2.isSome = true)) := by decide
  have hshape : ∀ p ∈ table0i.states.zip table0i.entries,
      p.1 = SlotState.OCCUPIED → ∃ k'' v'', p.2 = ((some k'' : Option Nat),
        (some v'' : Option Nat)) := by
    intro p hp h1
    have h2 : p.2.1.isSome = true ∧ p.2.2.isSome = true := by
      by_contra hq
      exact hshape0 p hp ⟨h1, hq⟩
    obtain ⟨k'', hk''⟩ := Option.isSome_iff_exists.mp h2.1
    obtain ⟨v'', hv''⟩ := Option.isSome_iff_exists.mp h2.2
    exact ⟨k'', v'', by rw [← hk'', ← hv'']⟩
  have hmain := @C5_update_in_place_preserves_count Nat Nat _ table0i 3 99 3
    ⟨rfl, rfl, rfl⟩ (by decide) (by decide)
    (fun a b => rfl) (fun x => rfl) (by decide) hshape
    (rfl : find_entry_index table0i 3 false = some 3) (by decide)
  refine ⟨hmain.1 (by decide) 1 true true, ?_⟩
  have h2 := hmain.2 1 true true
  rw [hmain.1 (by decide) 1 true true]
  exact h2 _ _ (hmain.1 (by decide) 1 true true)

end HashTableC
